import Mathlib

/-!
Verification development for the `go-progs` repository, centered on the
`ghash` tool: the concurrent traversal / dedup / hash pipeline
(`ghash/process.go`), the manifest writer (`main.go`), and the manifest
verifier (`verify.go`).

Go code is shallowly embedded: Go strings become `List Char` (`GoStr`),
`int64` becomes `Int` with explicit range checks where `strconv` checks
them, filesystem access becomes explicit finite-map style functions
supplied as a parameter, and the fixed formatting verbs (`%d`, `%x`,
`%s`) become the concrete rendering functions below.
-/

namespace GoProgs

/-- Go strings, modeled as lists of characters.  (Go strings are byte
strings; every string manipulated by this program is built from `rune`
level operations, so the character-level model is faithful; byte escapes
producing invalid UTF-8 are noted where they arise.) -/
abbrev GoStr := List Char

/-- Literal helper: a Lean string literal as a `GoStr`. -/
def gs (s : String) : GoStr := s.data

/-- The character for a single decimal digit `n < 10`. -/
def digitChar (n : Nat) : Char := Char.ofNat (48 + n)

/-- Fuel-driven helper for decimal rendering (structural recursion so
that concrete inputs evaluate inside the kernel; the fuel is never
exhausted when it starts at the number itself). -/
def decDigitsF : Nat → Nat → GoStr
  | 0, n => [digitChar n]
  | fuel + 1, n =>
    if n < 10 then [digitChar n]
    else decDigitsF fuel (n / 10) ++ [digitChar (n % 10)]

/-- Decimal rendering of a natural number, as produced by Go's `%d`
verb on an unsigned integer: most significant digit first, no sign, no
leading zeros (except for 0 itself). -/
def decDigits (n : Nat) : GoStr := decDigitsF n n

/-- Decimal rendering of an `Int`, as produced by Go's `%d` verb on a
signed integer. -/
def intDec (z : Int) : GoStr :=
  if z < 0 then '-' :: decDigits z.natAbs else decDigits z.natAbs

/-- The numeric value of a digit string (the semantic inverse of
`decDigits`). -/
def decVal (s : GoStr) : Nat := s.foldl (fun a c => a * 10 + (c.toNat - 48)) 0

/-- Go's `unicode.IsSpace`, restricted to the `White_Space` table
(which is exactly what `strings.TrimSpace` uses). -/
def goIsSpace (c : Char) : Bool :=
  decide ((9 ≤ c.toNat ∧ c.toNat ≤ 13) ∨ c.toNat = 32 ∨ c.toNat = 0x85 ∨
    c.toNat = 0xA0 ∨ c.toNat = 0x1680 ∨ (0x2000 ≤ c.toNat ∧ c.toNat ≤ 0x200A) ∨
    c.toNat = 0x2028 ∨ c.toNat = 0x2029 ∨ c.toNat = 0x202F ∨
    c.toNat = 0x205F ∨ c.toNat = 0x3000)

/-- `strings.TrimSpace`: drop leading and trailing whitespace. -/
def trimSpace (l : GoStr) : GoStr :=
  ((l.dropWhile goIsSpace).reverse.dropWhile goIsSpace).reverse

/-- `strings.IndexRune(l, c)` followed by the slicing `l[:i], l[i+1:]`
done at both call sites in `parseLine`: split `l` at the first
occurrence of `c`, or `none` when `c` does not occur (`IndexRune < 0`). -/
def splitOnce (c : Char) : GoStr → Option (GoStr × GoStr)
  | [] => none
  | x :: xs =>
    if x = c then some ([], xs)
    else
      match splitOnce c xs with
      | some (pre, post) => some (x :: pre, post)
      | none => none

/-- Fuel-driven helper for `splitAll` (the fuel starts at the string
length, which `splitOnce` strictly decreases, so it never runs out). -/
def splitAllF : Nat → Char → GoStr → List GoStr
  | 0, _, l => [l]
  | fuel + 1, c, l =>
    match splitOnce c l with
    | none => [l]
    | some (pre, post) => pre :: splitAllF fuel c post

/-- `strings.Split(l, sep)` for a single-character separator (the header
line of a manifest is split on `" "`). -/
def splitAll (c : Char) (l : GoStr) : List GoStr := splitAllF l.length c l

/-- Lowercase hex digit, as used by Go's `%x` verb. -/
def hexDigitChar (n : Nat) : Char :=
  if n < 10 then Char.ofNat (48 + n) else Char.ofNat (87 + n)

/-- Go's `%x` on a `[]byte`: two lowercase hex digits per byte, most
significant nibble first. -/
def hexOfBytes : List Nat → GoStr
  | [] => []
  | b :: bs => hexDigitChar (b / 16) :: hexDigitChar (b % 16) :: hexOfBytes bs

/-- ASCII uppercasing of a character (to talk about manifests whose
digest was recorded in uppercase hex). -/
def upperChar (c : Char) : Char :=
  if 97 ≤ c.toNat ∧ c.toNat ≤ 122 then Char.ofNat (c.toNat - 32) else c

/-- ASCII uppercasing of a string. -/
def upperStr (s : GoStr) : GoStr := s.map upperChar

/-- `strconv.ParseInt(s, 10, 64)`: optional sign, decimal digits only,
value within the `int64` range; `none` models the error return. -/
def parseInt64 (s : GoStr) : Option Int :=
  let p : Bool × GoStr :=
    match s with
    | [] => (false, [])
    | c :: r => if c = '+' then (false, r) else if c = '-' then (true, r) else (false, c :: r)
  let neg := p.1
  let digs := p.2
  if digs = [] then none
  else if digs.all (fun c => decide (48 ≤ c.toNat ∧ c.toNat ≤ 57)) then
    let v : Nat := decVal digs
    if neg then (if v ≤ 2 ^ 63 then some (-(v : Int)) else none)
    else (if v < 2 ^ 63 then some (v : Int) else none)
  else none

/-! ## The traversal / dispatch engine (`ghash/process.go`)

`processArgs` iterates the argument list in a producer goroutine,
lstat-ing each name, consulting the `symlinkResolver`'s inode set,
resolving symlinks when enabled, and emitting regular files onto the
work channel and diagnostics onto the error channel.  The producer is
the only goroutine touching the inode set in this mode, so the loop is
modeled as a sequential fold; the events it emits (work items and
errors) are collected into one list in program order. -/

/-- File mode classification (the relevant bits of `os.FileMode`). -/
inductive FMode
  | regular
  | dir
  | symlink
  | other
deriving DecidableEq, Repr

/-- The identity fields read from `syscall.Stat_t`. -/
structure Stat_t where
  dev : Nat
  rdev : Nat
  ino : Nat
deriving DecidableEq, Repr

/-- The parts of `os.FileInfo` the program reads: mode, size
(`fi.Size()`), and the underlying `syscall.Stat_t` (`fi.Sys()`; on the
target platform this assertion always succeeds). -/
structure FileInfo where
  mode : FMode
  size : Int
  st : Stat_t
deriving DecidableEq, Repr

/-- The filesystem as seen through the three OS calls the dispatcher
makes.  `none` models the error return. -/
structure GhashFS where
  lstat : GoStr → Option FileInfo
  evalSymlinks : GoStr → Option GoStr
  stat : GoStr → Option FileInfo

/-- `fmt.Sprintf("%d:%d:%d", st.Dev, st.Rdev, st.Ino)` — the key under
which an inode is recorded in the `sync.Map`. -/
def inodeKey (st : Stat_t) : GoStr :=
  decDigits st.dev ++ (':' :: (decDigits st.rdev ++ (':' :: decDigits st.ino)))

/-- The `symlinkResolver.seen` map: association list in insertion
order; a key is stored at most once (`LoadOrStore` semantics). -/
abbrev SeenMap := List (GoStr × Stat_t)

/-- Lookup in the seen-map. -/
def lookupKey : SeenMap → GoStr → Option Stat_t
  | [], _ => none
  | (k, v) :: m, k' => if k' = k then some v else lookupKey m k'

/-- `sync.Map.LoadOrStore`: if the key is present return the stored
value and leave the map unchanged; otherwise store the candidate and
report that nothing was present. -/
def loadOrStore (m : SeenMap) (k : GoStr) (v : Stat_t) : Option Stat_t × SeenMap :=
  match lookupKey m k with
  | some x => (some x, m)
  | none => (none, (k, v) :: m)

/-- `symlinkResolver.isEntrySeen`: `LoadOrStore` the inode key; if it
was absent report "not seen"; if present, compare the stored `Stat_t`'s
identity fields with the probe's. -/
def isEntrySeen (s : SeenMap) (fi : FileInfo) : Bool × SeenMap :=
  match loadOrStore s (inodeKey fi.st) fi.st with
  | (none, s') => (false, s')
  | (some xt, s') =>
    (decide (xt.dev = fi.st.dev ∧ xt.rdev = fi.st.rdev ∧ xt.ino = fi.st.ino), s')

/-- Outcome of `symlinkResolver.resolve`: the Go function returns
`("", nil, err)`, `("", nil, nil)` (skip), or `(nm, fi, nil)`. -/
inductive ResolveRes
  | err (msg : GoStr)
  | skip
  | ok (nm : GoStr) (fi : FileInfo)
deriving DecidableEq

/-- `symlinkResolver.resolve`: `filepath.EvalSymlinks`, re-`Stat`, then
`isEntrySeen || !IsRegular` (note: `isEntrySeen` runs first and records
the resolved inode even when the target is then skipped). -/
def resolve (fs : GhashFS) (s : SeenMap) (nm : GoStr) : ResolveRes × SeenMap :=
  match fs.evalSymlinks nm with
  | none => (.err (nm ++ gs ": eval-symlinks error"), s)
  | some newnm =>
    match fs.stat newnm with
    | none => (.err (gs "stat " ++ newnm ++ gs ": stat error"), s)
    | some fi =>
      let p := isEntrySeen s fi
      if p.1 || !(fi.mode = FMode.regular) then (.skip, p.2)
      else (.ok newnm fi, p.2)

/-- What the dispatcher goroutine emits: an error-channel message or a
work-channel item (`walk.Result{Path: nm, Stat: fi}`). -/
inductive Event
  | errE (msg : GoStr)
  | workE (path : GoStr) (fi : FileInfo)
deriving DecidableEq

/-- The final `switch` of the dispatcher loop body. -/
def classify (nm : GoStr) (fi : FileInfo) : List Event :=
  match fi.mode with
  | FMode.dir => [Event.errE (gs "skipping dir " ++ nm ++ gs "..")]
  | FMode.regular => [Event.workE nm fi]
  | _ => [Event.errE (gs "skipping non-file " ++ nm ++ gs "..")]

/-- One iteration of the dispatcher loop of `processArgs` (lines 45-92
of `process.go`): lstat, seen-check, symlink handling, classify. -/
def processOne (fs : GhashFS) (follow : Bool) (s : SeenMap) (nm : GoStr) :
    List Event × SeenMap :=
  match fs.lstat nm with
  | none => ([Event.errE (gs "lstat " ++ nm ++ gs ": lstat error")], s)
  | some fi =>
    let p := isEntrySeen s fi
    if p.1 then ([], p.2)
    else if fi.mode = FMode.symlink then
      if !follow then ([Event.errE (gs "skipping symlink " ++ nm)], p.2)
      else
        match resolve fs p.2 nm with
        | (.err e, s2) => ([Event.errE e], s2)
        | (.skip, s2) => ([], s2)
        | (.ok nm2 fi2, s2) => (classify nm2 fi2, s2)
    else (classify nm fi, p.2)

/-- The dispatcher loop over the whole argument list. -/
def dispatchGo (fs : GhashFS) (follow : Bool) : SeenMap → List GoStr → List Event × SeenMap
  | s, [] => ([], s)
  | s, nm :: rest =>
    let p := processOne fs follow s nm
    let q := dispatchGo fs follow p.2 rest
    (p.1 ++ q.1, q.2)

/-- The dispatcher goroutine of `processArgs`, started on an empty
inode map. -/
def dispatch (fs : GhashFS) (follow : Bool) (args : List GoStr) : List Event × SeenMap :=
  dispatchGo fs follow [] args

/-- The work items among the emitted events. -/
def workItems (evs : List Event) : List (GoStr × FileInfo) :=
  evs.filterMap fun e =>
    match e with
    | Event.workE nm fi => some (nm, fi)
    | Event.errE _ => none

/-- `const _parallelism int = 2`. -/
def parallelismFactor : Nat := 2

/-- `var nWorkers = runtime.NumCPU() * _parallelism`. -/
def nWorkersOf (numCPU : Nat) : Nat := numCPU * parallelismFactor

/-- The worker count computed at the top of `processArgs`:
`nw := nWorkers; if len(args) < nw { nw = len(args) }`, which is the
number of goroutines started by the `for i := 0; i < nw; i++` loop. -/
def numWorkersStarted (numCPU : Nat) (nargs : Nat) : Nat :=
  let nw := nWorkersOf numCPU
  if nargs < nw then nargs else nw

/-- Well-formedness of the seen-map: every stored binding was stored
under its own inode key (true of every store the program performs). -/
def SeenWF (s : SeenMap) : Prop :=
  ∀ k v, lookupKey s k = some v → k = inodeKey v

/-! ### Example filesystems for the dispatcher claims -/

/-- A regular file with inode (1,0,7). -/
def regA : FileInfo := ⟨FMode.regular, 3, ⟨1, 0, 7⟩⟩

/-- A symlink (its own inode (1,0,9)) that resolves to `regA`'s file. -/
def symB : FileInfo := ⟨FMode.symlink, 0, ⟨1, 0, 9⟩⟩

/-- Three paths reaching one filesystem object: `a` names it, `b` is a
symlink resolving to it, `c` is a hard link to it. -/
def exampleFS3 : GhashFS where
  lstat := fun nm =>
    if nm = gs "a" then some regA
    else if nm = gs "b" then some symB
    else if nm = gs "c" then some regA
    else none
  evalSymlinks := fun nm => if nm = gs "b" then some (gs "a") else none
  stat := fun nm => if nm = gs "a" then some regA else none

/-- A directory with inode (1,0,6). -/
def dirD : FileInfo := ⟨FMode.dir, 0, ⟨1, 0, 6⟩⟩

/-- A symlink `s` (inode (1,0,5)) resolving to the directory `d`. -/
def symS : FileInfo := ⟨FMode.symlink, 0, ⟨1, 0, 5⟩⟩

/-- A filesystem with one argument `s`: a symlink to a directory. -/
def exampleFSsymDir : GhashFS where
  lstat := fun nm => if nm = gs "s" then some symS else none
  evalSymlinks := fun nm => if nm = gs "s" then some (gs "d") else none
  stat := fun nm => if nm = gs "d" then some dirD else none

/-! ## The manifest verifier (`verify.go`) and writer (`main.go`)

`doVerify` validates the header line, then feeds each subsequent line
through `parseLine` into a channel of `datum` values consumed by
workers running `verifyFile`; errors are harvested into a list.  The
worker pool interleaves error arrival nondeterministically; the model
below processes lines sequentially, which preserves the multiset (and
hence the count) of collected errors — the completeness of the
collection under every interleaving is established separately by the
pipeline model further down. -/

/-- Result of running a piece of Go code that can return a value,
return an error, or crash the process with a runtime panic. -/
inductive GoResult (α : Type)
  | ok (a : α)
  | err (e : GoStr)
  | panicked
deriving DecidableEq

/-- The verify-time filesystem: `os.Stat`, plus `hashFile` (which opens
the file and streams it through the configured hash, returning digest
bytes and the byte count hashed); `none` models the error return. -/
structure VerifyFS where
  stat : GoStr → Option FileInfo
  hashFile : GoStr → Option (List Nat × Int)

/-- The `datum` struct of `verify.go`.  (`errPref` models the source's
`errPrefix` field.) -/
structure Datum where
  file : GoStr
  size : Int
  expsum : GoStr
  errPref : GoStr
deriving DecidableEq

/-- Value of a hex digit character, as accepted by Go's
`strconv.UnquoteChar`. -/
def hexDigitVal (c : Char) : Option Nat :=
  if 48 ≤ c.toNat ∧ c.toNat ≤ 57 then some (c.toNat - 48)
  else if 97 ≤ c.toNat ∧ c.toNat ≤ 102 then some (c.toNat - 87)
  else if 65 ≤ c.toNat ∧ c.toNat ≤ 70 then some (c.toNat - 55)
  else none

/-- Valid Unicode scalar value (Go `utf8.ValidRune`). -/
def isValidRune (n : Nat) : Bool :=
  decide (n < 0xD800 ∨ (0xE000 ≤ n ∧ n ≤ 0x10FFFF))

/-- One escape sequence after a backslash, following Go's
`strconv.UnquoteChar` for a double-quoted string.  Byte escapes (hex
and octal) produce a raw byte in Go; values ≥ 0x80 are represented here
as the character of that code point. -/
def escChar : GoStr → Option (Char × GoStr)
  | 'a' :: r => some (Char.ofNat 7, r)
  | 'b' :: r => some (Char.ofNat 8, r)
  | 'f' :: r => some (Char.ofNat 12, r)
  | 'n' :: r => some (Char.ofNat 10, r)
  | 'r' :: r => some (Char.ofNat 13, r)
  | 't' :: r => some (Char.ofNat 9, r)
  | 'v' :: r => some (Char.ofNat 11, r)
  | '\\' :: r => some ('\\', r)
  | '"' :: r => some ('"', r)
  | 'x' :: h1 :: h2 :: r =>
    match hexDigitVal h1, hexDigitVal h2 with
    | some a, some b => some (Char.ofNat (a * 16 + b), r)
    | _, _ => none
  | 'u' :: a :: b :: c :: d :: r =>
    match hexDigitVal a, hexDigitVal b, hexDigitVal c, hexDigitVal d with
    | some va, some vb, some vc, some vd =>
      let n := ((va * 16 + vb) * 16 + vc) * 16 + vd
      if isValidRune n then some (Char.ofNat n, r) else none
    | _, _, _, _ => none
  | 'U' :: a :: b :: c :: d :: e :: f :: g :: h :: r =>
    match hexDigitVal a, hexDigitVal b, hexDigitVal c, hexDigitVal d,
        hexDigitVal e, hexDigitVal f, hexDigitVal g, hexDigitVal h with
    | some va, some vb, some vc, some vd, some ve, some vf, some vg, some vh =>
      let n := ((((((va * 16 + vb) * 16 + vc) * 16 + vd) * 16 + ve) * 16 + vf) * 16
        + vg) * 16 + vh
      if isValidRune n then some (Char.ofNat n, r) else none
    | _, _, _, _, _, _, _, _ => none
  | o1 :: o2 :: o3 :: r =>
    if 48 ≤ o1.toNat ∧ o1.toNat ≤ 55 then
      if (48 ≤ o2.toNat ∧ o2.toNat ≤ 55) ∧ (48 ≤ o3.toNat ∧ o3.toNat ≤ 55) then
        let n := ((o1.toNat - 48) * 8 + (o2.toNat - 48)) * 8 + (o3.toNat - 48)
        if n ≤ 255 then some (Char.ofNat n, r) else none
      else none
    else none
  | _ => none

/-- Fuel-driven scan of the contents of a double-quoted Go string
literal after the opening quote: the closing quote must be the final
character, a raw newline is rejected, escapes are decoded by
`escChar`. -/
def unquoteF : Nat → GoStr → Option GoStr
  | 0, _ => none
  | fuel + 1, l =>
    match l with
    | [] => none
    | '"' :: rest => if rest = [] then some [] else none
    | '\n' :: _ => none
    | '\\' :: rest =>
      match escChar rest with
      | none => none
      | some (c, rest3) =>
        match unquoteF fuel rest3 with
        | none => none
        | some tail => some (c :: tail)
    | c :: rest =>
      match unquoteF fuel rest with
      | none => none
      | some tail => some (c :: tail)

/-- `strconv.Unquote` restricted to the double-quoted form (the only
form reachable from `parseLine`, whose guard requires the first
character to be `"`). -/
def goUnquote (l : GoStr) : Option GoStr :=
  match l with
  | '"' :: rest => unquoteF l.length rest
  | _ => none

/-- The pure parsing prefix of `parseLine` (lines 141-168 of
`verify.go`): trim, split off the checksum at the first `|`, split off
the size at the next `|`, `ParseInt` the size, and unquote the
filename when it starts with `"`.  The underlying `strconv` error text
interpolated by `%w` is abstracted away.  A line whose filename field
is empty hits `fn[0]` on an empty string in Go — a runtime panic. -/
def parseFields (line0 : GoStr) : GoResult (GoStr × Int × GoStr) :=
  match splitOnce '|' (trimSpace line0) with
  | none => GoResult.err (gs "malformed checksum")
  | some (csum, rest1) =>
    match splitOnce '|' rest1 with
    | none => GoResult.err (gs "malformed file size")
    | some (szs, fn0) =>
      match parseInt64 szs with
      | none => GoResult.err (gs "malformed line; size")
      | some sz =>
        match fn0 with
        | [] => GoResult.panicked
        | c :: _ =>
          if c = '"' then
            match goUnquote fn0 with
            | none => GoResult.err (gs "malformed line; filename")
            | some fn => GoResult.ok (csum, sz, fn)
          else GoResult.ok (csum, sz, fn0)

/-- `parseLine` (lines 134-194 of `verify.go`): parse the fields, then
stat the named file, require a regular file, and require the stat size
to equal the recorded size — all before the datum is handed to the
work channel.  Note that the datum literal sets `file`, `size` and
`expsum` but not `errPrefix`, which keeps its zero value `""`. -/
def parseLine (fs : VerifyFS) (line : GoStr) (errpref : GoStr) : GoResult Datum :=
  match parseFields line with
  | GoResult.panicked => GoResult.panicked
  | GoResult.err m => GoResult.err (errpref ++ gs ": " ++ m)
  | GoResult.ok (csum, sz, fn) =>
    match fs.stat fn with
    | none => GoResult.err (errpref ++ gs ": stat error '" ++ fn ++ gs "'")
    | some fi =>
      if ¬fi.mode = FMode.regular then
        GoResult.err (errpref ++ gs ": '" ++ fn ++ gs "' not a file")
      else if fi.size ≠ sz then
        GoResult.err (errpref ++ gs ": '" ++ fn ++ gs "' size mismatch: exp " ++
          intDec sz ++ gs ", saw " ++ intDec fi.size)
      else GoResult.ok { file := fn, size := sz, expsum := csum, errPref := [] }

/-- `subtle.ConstantTimeCompare`: 0 when lengths differ, else 1 exactly
when the accumulated or-of-xors of the bytes is zero. -/
def constantTimeCompare (x y : List Nat) : Nat :=
  if x.length ≠ y.length then 0
  else if (List.zipWith (fun a b => a ^^^ b) x y).foldl (fun a b => a ||| b) 0 = 0 then 1
  else 0

/-- `[]byte(s)`: the bytes of a string.  The strings compared in
`verifyFile` are hex digests (pure ASCII), for which code points and
bytes coincide; code points are used uniformly since both encodings
are injective. -/
def strBytes (s : GoStr) : List Nat := s.map Char.toNat

/-- `verifyFile` (lines 196-215 of `verify.go`): hash the file, compare
the byte count, then compare the lowercase-hex rendering of the digest
with the recorded digest using `subtle.ConstantTimeCompare`.  Returns
`some errorMessage` or `none` (success), mirroring Go's `error`. -/
def verifyFile (fs : VerifyFS) (d : Datum) : Option GoStr :=
  match fs.hashFile d.file with
  | none => some (d.errPref ++ gs ": can't hash: hash error")
  | some (sum, sz) =>
    if d.size ≠ sz then
      some (d.errPref ++ gs ": '" ++ d.file ++ gs "' hash size mismatch: exp " ++
        intDec d.size ++ gs ", saw " ++ intDec sz)
    else if constantTimeCompare (strBytes (hexOfBytes sum)) (strBytes d.expsum) ≠ 1 then
      some (d.errPref ++ gs ": file modified '" ++ d.file ++ gs "'")
    else none

/-- One manifest entry line as emitted by the writer goroutine of
`main.go`: `fmt.Fprintf(fd, "%x|%d|%s\n", o.sum, o.sz, o.nm)`, without
the trailing newline (the scanner strips it).  The path is emitted
verbatim — the writer never quotes. -/
def encodeLine (sum : List Nat) (sz : Int) (nm : GoStr) : GoStr :=
  hexOfBytes sum ++ '|' :: (intDec sz ++ '|' :: nm)

/-- `const MAGIC = "#!ghash"` (`main.go`). -/
def MAGIC : GoStr := gs "#!ghash"

/-- The keys of the `Hashes` map in `main.go`. -/
def hashNames : List GoStr :=
  [gs "sha256", gs "sha512", gs "sha3", gs "sha3-256", gs "sha3-512",
   gs "blake2s", gs "blake2b", gs "blake2b-256", gs "blake2b-512", gs "blake3"]

/-- Outcome of the scan of the entry lines: either the whole process
dies from a panic in the feeder goroutine, or the collected error
list. -/
inductive LinesOut
  | panicked
  | errs (l : List GoStr)
deriving DecidableEq

/-- The entry-line loop of `doVerify` (feeder goroutine numbering lines
from 2 plus the verify workers), sequentialized: each line is parsed
with error prefix `nm: num`; a parse error is collected and the scan
continues; a parsed datum is verified and any verification error is
collected. -/
def verifyLines (fs : VerifyFS) (nm : GoStr) : List GoStr → Nat → LinesOut
  | [], _ => LinesOut.errs []
  | l :: ls, num =>
    match parseLine fs l (nm ++ gs ": " ++ decDigits num) with
    | GoResult.panicked => LinesOut.panicked
    | GoResult.err e =>
      match verifyLines fs nm ls (num + 1) with
      | LinesOut.panicked => LinesOut.panicked
      | LinesOut.errs es => LinesOut.errs (e :: es)
    | GoResult.ok d =>
      match verifyFile fs d with
      | some e =>
        match verifyLines fs nm ls (num + 1) with
        | LinesOut.panicked => LinesOut.panicked
        | LinesOut.errs es => LinesOut.errs (e :: es)
      | none => verifyLines fs nm ls (num + 1)

/-- The datums that the feeder goroutine actually places on the work
channel (the lines whose `parseLine` succeeded). -/
def datumsFed (fs : VerifyFS) (nm : GoStr) : List GoStr → Nat → List Datum
  | [], _ => []
  | l :: ls, num =>
    match parseLine fs l (nm ++ gs ": " ++ decDigits num) with
    | GoResult.ok d => d :: datumsFed fs nm ls (num + 1)
    | _ => datumsFed fs nm ls (num + 1)

/-- Overall outcome of `doVerify`: a `Die` before any entry is
processed, a process-killing panic, or completion with the collected
per-entry errors and the returned exit indicator. -/
inductive VerifyOutcome
  | fatal (msg : GoStr)
  | panicked
  | done (errs : List GoStr) (exit : Nat)
deriving DecidableEq

/-- `doVerify` (lines 36-132 of `verify.go`) on manifest `nm` with the
given lines: read the first line or die; split it on spaces; require at
least three fields, the `MAGIC` token, and a known algorithm name (each
failure is a `Die` naming the manifest); then scan the entry lines,
numbering from 2; finally return `1 & len(errs)` as the exit code. -/
def doVerify (fs : VerifyFS) (nm : GoStr) (content : List GoStr) : VerifyOutcome :=
  match content with
  | [] => VerifyOutcome.fatal (nm ++ gs ": possibly corrupt; can't read first line")
  | first :: rest =>
    match splitAll ' ' first with
    | magic :: halgo :: _ :: _ =>
      if magic ≠ MAGIC then VerifyOutcome.fatal (nm ++ gs ": Not a ghash file")
      else if ¬halgo ∈ hashNames then
        VerifyOutcome.fatal (nm ++ gs ": unsupported hash algo '" ++ halgo ++ gs "'")
      else
        match verifyLines fs nm rest 2 with
        | LinesOut.panicked => VerifyOutcome.panicked
        | LinesOut.errs errs => VerifyOutcome.done errs (1 &&& errs.length)
    | _ =>
      VerifyOutcome.fatal (nm ++ gs ": possibly corrupt; not enough fields in header")

/-- Filesystem for the verify-side examples: a regular file `f` of
size 1 whose one-byte content hashes to `0xab`. -/
def exampleVFS : VerifyFS where
  stat := fun nm => if nm = gs "f" then some ⟨FMode.regular, 1, ⟨1, 0, 2⟩⟩ else none
  hashFile := fun nm => if nm = gs "f" then some ([171], 1) else none

/-- Filesystem where `f` has size 3 (to exercise the parse-time size
check against manifests recording size 5). -/
def exampleVFS5 : VerifyFS where
  stat := fun nm => if nm = gs "f" then some ⟨FMode.regular, 3, ⟨1, 0, 2⟩⟩ else none
  hashFile := fun nm => if nm = gs "f" then some ([171], 3) else none

/-! ## The fan-out / fan-in shutdown discipline

Both `processArgs` (`process.go` lines 96-125) and `doVerify`
(`verify.go` lines 69-124) share one synchronization skeleton: a feeder
goroutine pushes work onto a bounded work channel and diagnostics onto
the error channel, closing the work channel when its input is
exhausted; `nw` workers drain the work channel until it is closed and
push any per-item error onto the error channel; a single aggregator
drains the error channel into a list; and the main routine executes
exactly `wrkWait.Wait(); close(errch); errWait.Wait()` before reading
the list.  The model below is a small-step semantics of that skeleton:
a configuration records every queue and flag, and a schedule is an
arbitrary interleaving of actor steps (a disabled actor's step is a
no-op).  Channel capacities only throttle senders; they do not affect
which values are eventually received, so queues are unbounded here. -/

/-- What the feeder will do for one input record: push a diagnostic
straight to the error channel, or push a work item whose processing
outcome by `apply` is precomputed (`some e` = the worker will fail with
error `e`, `none` = it will succeed). -/
inductive FeedItem
  | toErr (e : GoStr)
  | toWork (r : Option GoStr)
deriving DecidableEq

/-- A worker is idle (between items), holding an error it has computed
but not yet sent, or exited. -/
inductive WSt
  | idle
  | hold (e : GoStr)
  | done
deriving DecidableEq

/-- A configuration of the pipeline. -/
structure PipeCfg where
  feed : List FeedItem
  workCh : List (Option GoStr)
  workClosed : Bool
  workers : List WSt
  errCh : List GoStr
  errClosed : Bool
  errs : List GoStr
  aggDone : Bool
  mainPC : Nat
deriving DecidableEq

/-- The concurrent actors. -/
inductive Actor
  | feeder
  | worker (i : Nat)
  | agg
  | main
deriving DecidableEq

/-- All workers have exited (what `wrkWait.Wait()` waits for). -/
def allD (ws : List WSt) : Bool := ws.all fun w => decide (w = WSt.done)

/-- The feeder's next step: push the head input record to the proper
channel, or close the work channel when the input is exhausted. -/
def feederStep (c : PipeCfg) : PipeCfg :=
  match c.feed with
  | FeedItem.toErr e :: rest => { c with feed := rest, errCh := c.errCh ++ [e] }
  | FeedItem.toWork r :: rest => { c with feed := rest, workCh := c.workCh ++ [r] }
  | [] => if c.workClosed then c else { c with workClosed := true }

/-- Worker `i`'s next step: pop an item and compute its outcome, push a
held error, or exit once the work channel is closed and drained. -/
def workerStep (c : PipeCfg) (i : Nat) : PipeCfg :=
  match c.workers.get? i with
  | none => c
  | some WSt.idle =>
    match c.workCh with
    | some e :: rest => { c with workCh := rest, workers := c.workers.set i (WSt.hold e) }
    | none :: rest => { c with workCh := rest }
    | [] => if c.workClosed then { c with workers := c.workers.set i WSt.done } else c
  | some (WSt.hold e) =>
    { c with errCh := c.errCh ++ [e], workers := c.workers.set i WSt.idle }
  | some WSt.done => c

/-- The aggregator's next step: pop an error into the list, or finish
once the error channel is closed and drained. -/
def aggStep (c : PipeCfg) : PipeCfg :=
  match c.errCh with
  | e :: rest => { c with errCh := rest, errs := c.errs ++ [e] }
  | [] => if c.errClosed then { c with aggDone := true } else c

/-- The main routine's next step, following the source order exactly:
close the error channel only once every worker is done, return only
once the aggregator has finished. -/
def mainStep (c : PipeCfg) : PipeCfg :=
  if c.mainPC = 0 then
    (if allD c.workers then { c with errClosed := true, mainPC := 1 } else c)
  else if c.mainPC = 1 then
    (if c.aggDone then { c with mainPC := 2 } else c)
  else c

/-- One step of one actor; a no-op when the actor is blocked or done. -/
def step (c : PipeCfg) : Actor → PipeCfg
  | Actor.feeder => feederStep c
  | Actor.worker i => workerStep c i
  | Actor.agg => aggStep c
  | Actor.main => mainStep c

/-- Run a schedule. -/
def run (c : PipeCfg) (sched : List Actor) : PipeCfg := sched.foldl step c

/-- The initial configuration: the feeder's input, `n` idle workers,
everything else empty. -/
def initCfg (feed : List FeedItem) (n : Nat) : PipeCfg :=
  ⟨feed, [], false, List.replicate n WSt.idle, [], false, [], false, 0⟩

/-- Every error the run is supposed to collect: the feeder's direct
diagnostics plus the failures of the work items. -/
def itemErrs : List FeedItem → List GoStr :=
  List.filterMap fun x =>
    match x with
    | FeedItem.toErr e => some e
    | FeedItem.toWork r => r

/-- Errors currently held by workers. -/
def heldErrs (ws : List WSt) : List GoStr :=
  ws.filterMap fun w =>
    match w with
    | WSt.hold e => some e
    | _ => none

/-- Errors latent in the unconsumed work queue. -/
def chanErrs (wc : List (Option GoStr)) : List GoStr := wc.filterMap id

/-- A `Multiset` from an optional element. -/
def optMS {α : Type} : Option α → Multiset α
  | none => 0
  | some a => {a}

/-- The inductive invariant of the pipeline. -/
structure PipeInv (feed0 : List FeedItem) (n : Nat) (c : PipeCfg) : Prop where
  conserve :
    Multiset.ofList c.errs + Multiset.ofList c.errCh +
      Multiset.ofList (heldErrs c.workers) + Multiset.ofList (chanErrs c.workCh) +
      Multiset.ofList (itemErrs c.feed) = Multiset.ofList (itemErrs feed0)
  wlen : c.workers.length = n
  feedNil : feed0 = [] → c.feed = []
  closedFeed : c.workClosed = true → c.feed = []
  doneClosed : ∀ w ∈ c.workers, w = WSt.done → c.workClosed = true
  allDoneQuiet : c.workers ≠ [] → allD c.workers = true → c.workCh = [] ∧ c.feed = []
  errClosedDone : c.errClosed = true → allD c.workers = true
  aggDoneQuiet : c.aggDone = true → c.errClosed = true ∧ c.errCh = []
  mainPC1 : 1 ≤ c.mainPC → c.errClosed = true
  mainPC2 : 2 ≤ c.mainPC → c.aggDone = true

/-! ## Theorems -/

theorem digitChar_toNat {m : Nat} (h : m < 10) : (digitChar m).toNat = 48 + m := by
  interval_cases m <;> rfl

theorem decVal_append_digit (s : GoStr) (c : Char) :
    decVal (s ++ [c]) = decVal s * 10 + (c.toNat - 48) := by
  simp [decVal, List.foldl_append]

theorem decVal_decDigitsF : ∀ (fuel n : Nat), n ≤ fuel → decVal (decDigitsF fuel n) = n := by
  intro fuel
  induction fuel with
  | zero =>
    intro n h
    have : n = 0 := by omega
    subst this
    simp [decDigitsF, decVal]
    decide
  | succ fuel ih =>
    intro n h
    rw [decDigitsF]
    split
    · rename_i h10
      simp [decVal, digitChar_toNat h10]
    · rename_i h10
      have hlt : n / 10 < n := Nat.div_lt_self (by omega) (by omega)
      rw [decVal_append_digit, ih _ (by omega), digitChar_toNat (Nat.mod_lt _ (by omega))]
      omega

theorem decVal_decDigits (n : Nat) : decVal (decDigits n) = n :=
  decVal_decDigitsF n n (Nat.le_refl n)

theorem decDigitsF_ne_nil (fuel n : Nat) : decDigitsF fuel n ≠ [] := by
  cases fuel with
  | zero => simp [decDigitsF]
  | succ fuel =>
    rw [decDigitsF]
    split <;> simp

theorem decDigits_injective : Function.Injective decDigits := by
  intro m n h
  have := decVal_decDigits m
  rw [h, decVal_decDigits] at this
  omega

theorem decDigitsF_mem_digit :
    ∀ {fuel n : Nat}, n ≤ fuel → ∀ {c : Char}, c ∈ decDigitsF fuel n →
      48 ≤ c.toNat ∧ c.toNat ≤ 57 := by
  intro fuel
  induction fuel with
  | zero =>
    intro n hn c h
    have : n = 0 := by omega
    subst this
    simp [decDigitsF] at h
    subst h
    rw [digitChar_toNat (by omega)]
    omega
  | succ fuel ih =>
    intro n hn c h
    rw [decDigitsF] at h
    split at h
    · rename_i h10
      simp at h
      subst h
      rw [digitChar_toNat h10]; omega
    · rename_i h10
      have hlt : n / 10 < n := Nat.div_lt_self (by omega) (by omega)
      rcases List.mem_append.1 h with h' | h'
      · exact ih (by omega) h'
      · simp at h'
        subst h'
        rw [digitChar_toNat (Nat.mod_lt _ (by omega))]
        have := Nat.mod_lt n (show 0 < 10 by omega)
        omega

/-- Every character emitted by `decDigits` is an ASCII decimal digit. -/
theorem decDigits_mem_digit {n : Nat} {c : Char} (h : c ∈ decDigits n) :
    48 ≤ c.toNat ∧ c.toNat ≤ 57 :=
  decDigitsF_mem_digit (Nat.le_refl n) h

theorem dropWhile_eq_self_of_head {p : Char → Bool} :
    ∀ {l : GoStr}, (∀ c, l.head? = some c → p c = false) → l.dropWhile p = l := by
  intro l h
  cases l with
  | nil => rfl
  | cons a l => simp [List.dropWhile_cons, h a rfl]

theorem trimSpace_eq_self {l : GoStr}
    (h1 : ∀ c, l.head? = some c → goIsSpace c = false)
    (h2 : ∀ c, l.getLast? = some c → goIsSpace c = false) :
    trimSpace l = l := by
  unfold trimSpace
  rw [dropWhile_eq_self_of_head h1]
  rw [dropWhile_eq_self_of_head (by
    intro c hc
    apply h2
    rwa [← List.head?_reverse])]
  exact List.reverse_reverse l

theorem splitOnce_append {c : Char} :
    ∀ {xs : GoStr}, c ∉ xs → ∀ ys, splitOnce c (xs ++ c :: ys) = some (xs, ys) := by
  intro xs
  induction xs with
  | nil => intro _ ys; simp [splitOnce]
  | cons a l ih =>
    intro h ys
    have ha : a ≠ c := fun hac => h (by simp [hac])
    have hl : c ∉ l := fun hc => h (List.mem_cons_of_mem _ hc)
    simp [splitOnce, ha, ih hl ys]

theorem splitOnce_length {c : Char} :
    ∀ {l pre post : GoStr}, splitOnce c l = some (pre, post) → post.length < l.length := by
  intro l
  induction l with
  | nil => intro pre post h; simp [splitOnce] at h
  | cons a l ih =>
    intro pre post h
    rw [splitOnce] at h
    split at h
    · cases h; simp
    · revert h
      split
      · rename_i pre' post' hsp
        intro h
        cases h
        have := ih hsp
        simp
        omega
      · intro h; cases h

theorem parseInt64_decDigits {n : Nat} (h : n < 2 ^ 63) :
    parseInt64 (decDigits n) = some (n : Int) := by
  have hall : (decDigits n).all (fun c => decide (48 ≤ c.toNat ∧ c.toNat ≤ 57)) = true := by
    rw [List.all_eq_true]
    intro c hc
    have := decDigits_mem_digit hc
    simp [this.1, this.2]
  have hhead : ∀ c ∈ decDigits n, c ≠ '+' ∧ c ≠ '-' := by
    intro c hc
    have h48 := decDigits_mem_digit hc
    constructor <;>
      (intro he; subst he; revert h48; decide)
  cases hd : decDigits n with
  | nil => exact absurd hd (decDigitsF_ne_nil _ _)
  | cons a l =>
    have ha : a ∈ decDigits n := by rw [hd]; simp
    obtain ⟨hap, ham⟩ := hhead a ha
    rw [hd] at hall
    have hv : decVal (a :: l) = n := by rw [← hd, decVal_decDigits]
    simp only [parseInt64, hap, ham, if_false, if_neg, hall, hv]
    simp [hv]
    omega

/-! ### Properties of the inode tracker -/

theorem decDigits_ne_colon {n : Nat} {c : Char} (h : c ∈ decDigits n) : c ≠ ':' := by
  intro he
  subst he
  have := decDigits_mem_digit h
  revert this
  decide

theorem append_colon_inj :
    ∀ {a a' u u' : GoStr}, ':' ∉ a → ':' ∉ a' →
      a ++ ':' :: u = a' ++ ':' :: u' → a = a' ∧ u = u' := by
  intro a
  induction a with
  | nil =>
    intro a' u u' _ ha' h
    cases a' with
    | nil => simpa using h
    | cons b l =>
      exfalso
      simp at h
      apply ha'
      have : (':' : Char) ∈ b :: l := by
        rw [h.1]
        exact List.mem_cons_self _ _
      exact this
  | cons b l ih =>
    intro a' u u' ha ha' h
    cases a' with
    | nil =>
      exfalso
      simp at h
      apply ha
      have : (':' : Char) ∈ b :: l := by
        rw [← h.1]
        exact List.mem_cons_self _ _
      exact this
    | cons b' l' =>
      simp at h
      obtain ⟨hb, hrest⟩ := h
      have hl : ':' ∉ l := fun hc => ha (List.mem_cons_of_mem _ hc)
      have hl' : ':' ∉ l' := fun hc => ha' (List.mem_cons_of_mem _ hc)
      obtain ⟨h1, h2⟩ := ih hl hl' hrest
      exact ⟨by simp [hb, h1], h2⟩

theorem inodeKey_injective : Function.Injective inodeKey := by
  intro s t h
  unfold inodeKey at h
  have hc : ∀ n : Nat, ':' ∉ decDigits n := fun n hc => decDigits_ne_colon hc rfl
  obtain ⟨h1, h2⟩ := append_colon_inj (hc s.dev) (hc t.dev) h
  obtain ⟨h3, h4⟩ := append_colon_inj (hc s.rdev) (hc t.rdev) h2
  cases s; cases t
  simp only [Stat_t.mk.injEq]
  exact ⟨decDigits_injective h1, decDigits_injective h3, decDigits_injective h4⟩

theorem seenWF_nil : SeenWF [] := by
  intro k v h
  simp [lookupKey] at h

/-- Unfolding `isEntrySeen` by the result of the initial lookup. -/
theorem isEntrySeen_eq (s : SeenMap) (fi : FileInfo) :
    isEntrySeen s fi =
      match lookupKey s (inodeKey fi.st) with
      | some xt =>
        (decide (xt.dev = fi.st.dev ∧ xt.rdev = fi.st.rdev ∧ xt.ino = fi.st.ino), s)
      | none => (false, (inodeKey fi.st, fi.st) :: s) := by
  unfold isEntrySeen loadOrStore
  cases hl : lookupKey s (inodeKey fi.st) <;> simp

/-- `isEntrySeen` never disturbs an existing binding (first writer
wins). -/
theorem isEntrySeen_mono {s : SeenMap} {fi : FileInfo} {k : GoStr} {v : Stat_t}
    (h : lookupKey s k = some v) :
    lookupKey (isEntrySeen s fi).2 k = some v := by
  rw [isEntrySeen_eq]
  cases hl : lookupKey s (inodeKey fi.st) with
  | some xt => simpa using h
  | none =>
    show lookupKey ((inodeKey fi.st, fi.st) :: s) k = some v
    rw [lookupKey]
    split
    · rename_i hk
      rw [hk] at h
      rw [h] at hl
      cases hl
    · exact h

theorem isEntrySeen_wf {s : SeenMap} {fi : FileInfo} (hwf : SeenWF s) :
    SeenWF (isEntrySeen s fi).2 := by
  rw [isEntrySeen_eq]
  cases hl : lookupKey s (inodeKey fi.st) with
  | some xt => simpa using hwf
  | none =>
    show SeenWF ((inodeKey fi.st, fi.st) :: s)
    intro k v h
    rw [lookupKey] at h
    split at h
    · rename_i hk
      cases h
      exact hk
    · exact hwf k v h

/-- With a well-formed map, `isEntrySeen` answering `false` means the
probed key was genuinely absent, and afterwards it is stored with the
probe's record (the check-and-set contract of the tracker). -/
theorem isEntrySeen_false {s : SeenMap} {fi : FileInfo} (hwf : SeenWF s)
    (h : (isEntrySeen s fi).1 = false) :
    lookupKey s (inodeKey fi.st) = none ∧
      lookupKey (isEntrySeen s fi).2 (inodeKey fi.st) = some fi.st := by
  rw [isEntrySeen_eq] at h ⊢
  cases hl : lookupKey s (inodeKey fi.st) with
  | some xt =>
    exfalso
    rw [hl] at h
    simp at h
    have hk := hwf _ _ hl
    have hxt : xt = fi.st := inodeKey_injective hk.symm
    subst hxt
    exact h rfl rfl rfl
  | none =>
    refine ⟨rfl, ?_⟩
    show lookupKey ((inodeKey fi.st, fi.st) :: s) (inodeKey fi.st) = some fi.st
    simp [lookupKey]

/-! ### Dispatcher invariants -/

theorem workItems_append (l1 l2 : List Event) :
    workItems (l1 ++ l2) = workItems l1 ++ workItems l2 := by
  simp [workItems, List.filterMap_append]

theorem workItems_classify (nm : GoStr) (fi : FileInfo) :
    workItems (classify nm fi) =
      if fi.mode = FMode.regular then [(nm, fi)] else [] := by
  cases h : fi.mode <;> simp [classify, h, workItems]

theorem pairwise_of_len_le_one {α : Type} {R : α → α → Prop} {l : List α}
    (h : l.length ≤ 1) : l.Pairwise R := by
  cases l with
  | nil => exact List.Pairwise.nil
  | cons a t =>
    cases t with
    | nil => simp
    | cons b t2 => simp at h

theorem resolve_eq_none {fs : GhashFS} {s : SeenMap} {nm : GoStr}
    (he : fs.evalSymlinks nm = none) :
    resolve fs s nm = (ResolveRes.err (nm ++ gs ": eval-symlinks error"), s) := by
  unfold resolve
  rw [he]

theorem resolve_eq_stat_none {fs : GhashFS} {s : SeenMap} {nm newnm : GoStr}
    (he : fs.evalSymlinks nm = some newnm) (hst : fs.stat newnm = none) :
    resolve fs s nm = (ResolveRes.err (gs "stat " ++ newnm ++ gs ": stat error"), s) := by
  unfold resolve
  simp only [he, hst]

theorem resolve_eq_stat_some {fs : GhashFS} {s : SeenMap} {nm newnm : GoStr}
    {fi : FileInfo} (he : fs.evalSymlinks nm = some newnm) (hst : fs.stat newnm = some fi) :
    resolve fs s nm =
      if ((isEntrySeen s fi).1 || !decide (fi.mode = FMode.regular)) = true then
        (ResolveRes.skip, (isEntrySeen s fi).2)
      else (ResolveRes.ok newnm fi, (isEntrySeen s fi).2) := by
  unfold resolve
  simp only [he, hst]

/-- `resolve` preserves the tracker's invariants, only grows the map,
and only admits fresh regular files, registering them. -/
theorem resolve_spec (fs : GhashFS) (nm : GoStr) {s : SeenMap} (hwf : SeenWF s) :
    SeenWF (resolve fs s nm).2 ∧
    (∀ k v, lookupKey s k = some v → lookupKey (resolve fs s nm).2 k = some v) ∧
    (∀ nm2 fi2, (resolve fs s nm).1 = ResolveRes.ok nm2 fi2 →
      fi2.mode = FMode.regular ∧ lookupKey s (inodeKey fi2.st) = none ∧
      lookupKey (resolve fs s nm).2 (inodeKey fi2.st) = some fi2.st) := by
  cases he : fs.evalSymlinks nm with
  | none =>
    rw [resolve_eq_none he]
    refine ⟨hwf, fun k v h => h, ?_⟩
    intro nm2 fi2 hok
    simp at hok
  | some newnm =>
    cases hst : fs.stat newnm with
    | none =>
      rw [resolve_eq_stat_none he hst]
      refine ⟨hwf, fun k v h => h, ?_⟩
      intro nm2 fi2 hok
      simp at hok
    | some fi =>
      rw [resolve_eq_stat_some he hst]
      by_cases hcond : ((isEntrySeen s fi).1 || !decide (fi.mode = FMode.regular)) = true
      · rw [if_pos hcond]
        refine ⟨isEntrySeen_wf hwf, fun k v h => isEntrySeen_mono h, ?_⟩
        intro nm2 fi2 hok
        simp at hok
      · rw [if_neg hcond]
        simp only [Bool.or_eq_true, not_or, Bool.not_eq_true] at hcond
        obtain ⟨hb, hreg⟩ := hcond
        have hreg' : fi.mode = FMode.regular := by
          by_contra hx
          simp [hx] at hreg
        refine ⟨isEntrySeen_wf hwf, fun k v h => isEntrySeen_mono h, ?_⟩
        intro nm2 fi2 hok
        simp only [ResolveRes.ok.injEq] at hok
        obtain ⟨h1, h2⟩ := hok
        subst h1; subst h2
        obtain ⟨ha, hb'⟩ := isEntrySeen_false hwf hb
        exact ⟨hreg', ha, hb'⟩

theorem processOne_eq_lstat_none {fs : GhashFS} {follow : Bool} {s : SeenMap}
    {nm : GoStr} (hl : fs.lstat nm = none) :
    processOne fs follow s nm =
      ([Event.errE (gs "lstat " ++ nm ++ gs ": lstat error")], s) := by
  unfold processOne
  simp only [hl]

theorem processOne_eq_seen {fs : GhashFS} {follow : Bool} {s : SeenMap}
    {nm : GoStr} {fi : FileInfo} (hl : fs.lstat nm = some fi)
    (hb : (isEntrySeen s fi).1 = true) :
    processOne fs follow s nm = ([], (isEntrySeen s fi).2) := by
  unfold processOne
  simp only [hl, hb, if_pos]

theorem processOne_eq_symlink_nofollow {fs : GhashFS} {s : SeenMap}
    {nm : GoStr} {fi : FileInfo} (hl : fs.lstat nm = some fi)
    (hb : (isEntrySeen s fi).1 = false) (hm : fi.mode = FMode.symlink) :
    processOne fs false s nm =
      ([Event.errE (gs "skipping symlink " ++ nm)], (isEntrySeen s fi).2) := by
  unfold processOne
  simp only [hl, hb, hm]
  rfl

theorem processOne_eq_symlink_follow {fs : GhashFS} {s : SeenMap}
    {nm : GoStr} {fi : FileInfo} (hl : fs.lstat nm = some fi)
    (hb : (isEntrySeen s fi).1 = false) (hm : fi.mode = FMode.symlink) :
    processOne fs true s nm =
      (match resolve fs (isEntrySeen s fi).2 nm with
       | (ResolveRes.err e, s2) => ([Event.errE e], s2)
       | (ResolveRes.skip, s2) => ([], s2)
       | (ResolveRes.ok nm2 fi2, s2) => (classify nm2 fi2, s2)) := by
  unfold processOne
  simp only [hl, hb, hm]
  rfl

theorem processOne_eq_nosymlink {fs : GhashFS} {follow : Bool} {s : SeenMap}
    {nm : GoStr} {fi : FileInfo} (hl : fs.lstat nm = some fi)
    (hb : (isEntrySeen s fi).1 = false) (hm : ¬fi.mode = FMode.symlink) :
    processOne fs follow s nm = (classify nm fi, (isEntrySeen s fi).2) := by
  unfold processOne
  simp only [hl, hb, hm]
  rfl

/-- One dispatcher iteration preserves the tracker's invariants, only
grows the map, emits at most one work item, and any emitted work item's
inode key was fresh before the step and is registered after it. -/
theorem processOne_spec (fs : GhashFS) (follow : Bool) (nm : GoStr) {s : SeenMap}
    (hwf : SeenWF s) :
    SeenWF (processOne fs follow s nm).2 ∧
    (∀ k v, lookupKey s k = some v → lookupKey (processOne fs follow s nm).2 k = some v) ∧
    (∀ w ∈ workItems (processOne fs follow s nm).1,
      lookupKey s (inodeKey w.2.st) = none ∧
      lookupKey (processOne fs follow s nm).2 (inodeKey w.2.st) = some w.2.st) ∧
    (workItems (processOne fs follow s nm).1).length ≤ 1 := by
  cases hl : fs.lstat nm with
  | none =>
    rw [processOne_eq_lstat_none hl]
    refine ⟨hwf, fun k v h => h, ?_, ?_⟩
    · intro w hw
      simp [workItems] at hw
    · simp [workItems]
  | some fi =>
    cases hb : (isEntrySeen s fi).1 with
    | true =>
      rw [processOne_eq_seen hl hb]
      refine ⟨isEntrySeen_wf hwf, fun k v h => isEntrySeen_mono h, ?_, ?_⟩
      · intro w hw
        simp [workItems] at hw
      · simp [workItems]
    | false =>
      by_cases hm : fi.mode = FMode.symlink
      · cases follow with
        | false =>
          rw [processOne_eq_symlink_nofollow hl hb hm]
          refine ⟨isEntrySeen_wf hwf, fun k v h => isEntrySeen_mono h, ?_, ?_⟩
          · intro w hw
            simp [workItems] at hw
          · simp [workItems]
        | true =>
          rw [processOne_eq_symlink_follow hl hb hm]
          have hwf1 : SeenWF (isEntrySeen s fi).2 := isEntrySeen_wf hwf
          obtain ⟨hrwf, hrmono, hrok⟩ := resolve_spec fs nm hwf1
          cases hr : resolve fs (isEntrySeen s fi).2 nm with
          | mk r s2 =>
            rw [hr] at hrwf hrmono
            cases r with
            | err e =>
              refine ⟨hrwf, fun k v h => hrmono k v (isEntrySeen_mono h), ?_, ?_⟩
              · intro w hw
                simp [workItems] at hw
              · simp [workItems]
            | skip =>
              refine ⟨hrwf, fun k v h => hrmono k v (isEntrySeen_mono h), ?_, ?_⟩
              · intro w hw
                simp [workItems] at hw
              · simp [workItems]
            | ok nm2 fi2 =>
              have hok := hrok nm2 fi2 (by rw [hr])
              rw [hr] at hok
              obtain ⟨hreg, hfresh, hstored⟩ := hok
              simp only []
              rw [workItems_classify, if_pos hreg]
              refine ⟨hrwf, fun k v h => hrmono k v (isEntrySeen_mono h), ?_, by simp⟩
              intro w hw
              simp at hw
              subst hw
              simp only []
              refine ⟨?_, hstored⟩
              cases hfx : lookupKey s (inodeKey fi2.st) with
              | none => rfl
              | some v =>
                exfalso
                have h2 := @isEntrySeen_mono s fi _ _ hfx
                rw [hfresh] at h2
                cases h2
      · rw [processOne_eq_nosymlink hl hb hm]
        simp only [workItems_classify]
        by_cases hreg : fi.mode = FMode.regular
        · rw [if_pos hreg]
          obtain ⟨hfresh, hstored⟩ := isEntrySeen_false hwf hb
          refine ⟨isEntrySeen_wf hwf, fun k v h => isEntrySeen_mono h, ?_, by simp⟩
          intro w hw
          simp at hw
          subst hw
          exact ⟨hfresh, hstored⟩
        · rw [if_neg hreg]
          refine ⟨isEntrySeen_wf hwf, fun k v h => isEntrySeen_mono h, ?_, by simp⟩
          intro w hw
          simp at hw

/-- The dispatcher loop: invariants accumulate over the argument list;
work items carry pairwise-distinct inode keys. -/
theorem dispatchGo_spec (fs : GhashFS) (follow : Bool) :
    ∀ (args : List GoStr) (s : SeenMap), SeenWF s →
      SeenWF (dispatchGo fs follow s args).2 ∧
      (∀ k v, lookupKey s k = some v → lookupKey (dispatchGo fs follow s args).2 k = some v) ∧
      (∀ w ∈ workItems (dispatchGo fs follow s args).1,
        lookupKey s (inodeKey w.2.st) = none ∧
        lookupKey (dispatchGo fs follow s args).2 (inodeKey w.2.st) = some w.2.st) ∧
      (workItems (dispatchGo fs follow s args).1).Pairwise
        (fun a b => inodeKey a.2.st ≠ inodeKey b.2.st) := by
  intro args
  induction args with
  | nil =>
    intro s hwf
    exact ⟨hwf, fun k v h => h, by intro w hw; simp [dispatchGo, workItems] at hw,
      by simp [dispatchGo, workItems]⟩
  | cons nm rest ih =>
    intro s hwf
    obtain ⟨pwf, pmono, pitems, plen⟩ := processOne_spec fs follow nm hwf
    obtain ⟨qwf, qmono, qitems, qpair⟩ := ih (processOne fs follow s nm).2 pwf
    have hd : dispatchGo fs follow s (nm :: rest) =
        ((processOne fs follow s nm).1 ++
          (dispatchGo fs follow (processOne fs follow s nm).2 rest).1,
         (dispatchGo fs follow (processOne fs follow s nm).2 rest).2) := rfl
    rw [hd]
    simp only [workItems_append]
    refine ⟨qwf, fun k v h => qmono k v (pmono k v h), ?_, ?_⟩
    · intro w hw
      rcases List.mem_append.1 hw with h' | h'
      · obtain ⟨hfresh, hstored⟩ := pitems w h'
        exact ⟨hfresh, qmono _ _ hstored⟩
      · obtain ⟨hfresh, hstored⟩ := qitems w h'
        refine ⟨?_, hstored⟩
        cases hfx : lookupKey s (inodeKey w.2.st) with
        | none => rfl
        | some v =>
          exfalso
          have h2 := pmono _ _ hfx
          rw [hfresh] at h2
          cases h2
    · rw [List.pairwise_append]
      refine ⟨pairwise_of_len_le_one plen, qpair, ?_⟩
      intro a ha b hb hab
      obtain ⟨_, hstored⟩ := pitems a ha
      obtain ⟨hfresh, _⟩ := qitems b hb
      rw [← hab] at hfresh
      rw [hfresh] at hstored
      cases hstored

/-- Splitting the argument list: the dispatcher processes a
concatenation by processing the prefix and continuing on the resulting
map. -/
theorem dispatchGo_append (fs : GhashFS) (follow : Bool) :
    ∀ (pre post : List GoStr) (s : SeenMap),
      dispatchGo fs follow s (pre ++ post) =
        ((dispatchGo fs follow s pre).1 ++
          (dispatchGo fs follow (dispatchGo fs follow s pre).2 post).1,
         (dispatchGo fs follow (dispatchGo fs follow s pre).2 post).2) := by
  intro pre
  induction pre with
  | nil => intro post s; simp [dispatchGo]
  | cons nm rest ih =>
    intro post s
    have h1 : dispatchGo fs follow s ((nm :: rest) ++ post) =
        ((processOne fs follow s nm).1 ++
          (dispatchGo fs follow (processOne fs follow s nm).2 (rest ++ post)).1,
         (dispatchGo fs follow (processOne fs follow s nm).2 (rest ++ post)).2) := rfl
    have h2 : dispatchGo fs follow s (nm :: rest) =
        ((processOne fs follow s nm).1 ++
          (dispatchGo fs follow (processOne fs follow s nm).2 rest).1,
         (dispatchGo fs follow (processOne fs follow s nm).2 rest).2) := rfl
    rw [h1, h2, ih post (processOne fs follow s nm).2]
    simp [List.append_assoc]

/-- After any `isEntrySeen` probe, the probed key is present in the
map (either it already was, or it has just been stored). -/
theorem isEntrySeen_key_present (s : SeenMap) (fi : FileInfo) :
    lookupKey (isEntrySeen s fi).2 (inodeKey fi.st) ≠ none := by
  rw [isEntrySeen_eq]
  cases hl : lookupKey s (inodeKey fi.st) with
  | some xt =>
    show lookupKey s (inodeKey fi.st) ≠ none
    rw [hl]
    simp
  | none =>
    show lookupKey ((inodeKey fi.st, fi.st) :: s) (inodeKey fi.st) ≠ none
    simp [lookupKey]

/-! ### Claims about the dispatcher -/

/-- C9: for every call to `processArgs` with input list `args`, the
number of worker goroutines started equals
`min(len(args), runtime.NumCPU() * 2)` — the hardware parallelism times
the constant factor `_parallelism = 2`. -/
theorem C9_worker_pool_size (numCPU nargs : Nat) :
    numWorkersStarted numCPU nargs = min nargs (nWorkersOf numCPU) ∧
    nWorkersOf numCPU = numCPU * 2 := by
  constructor
  · show (if nargs < numCPU * 2 then nargs else numCPU * 2) = min nargs (numCPU * 2)
    split <;> omega
  · rfl

/-- C2: for every input sequence, the work items emitted by the
dispatcher carry pairwise-distinct inode keys (each filesystem object
is enqueued at most once, later sightings are not re-enqueued); a
binding stored in the tracker by a prefix of the run persists unchanged
to the end (first writer wins); and on a concrete filesystem where one
object is reachable by three paths (direct name, symlink, hard link),
exactly one work item is produced. -/
theorem C2_inode_admitted_exactly_once :
    (∀ (fs : GhashFS) (follow : Bool) (args : List GoStr),
      (workItems (dispatch fs follow args).1).Pairwise
        (fun a b => inodeKey a.2.st ≠ inodeKey b.2.st)) ∧
    (∀ (fs : GhashFS) (follow : Bool) (pre post : List GoStr) (k : GoStr) (v : Stat_t),
      lookupKey (dispatch fs follow pre).2 k = some v →
      lookupKey (dispatch fs follow (pre ++ post)).2 k = some v) ∧
    (workItems (dispatch exampleFS3 true [gs "a", gs "b", gs "c"]).1).length = 1 := by
  refine ⟨?_, ?_, ?_⟩
  · intro fs follow args
    exact (dispatchGo_spec fs follow args [] seenWF_nil).2.2.2
  · intro fs follow pre post k v h
    unfold dispatch at h ⊢
    rw [dispatchGo_append]
    have hwf : SeenWF (dispatchGo fs follow [] pre).2 :=
      (dispatchGo_spec fs follow pre [] seenWF_nil).1
    exact (dispatchGo_spec fs follow post _ hwf).2.1 k v h
  · decide

/-- Witness for C2: instantiating the persistence conjunct on the
concrete three-path filesystem. -/
theorem C2_inode_admitted_exactly_once_witness :
    lookupKey (dispatch exampleFS3 true ([gs "a"] ++ [gs "b", gs "c"])).2
      (inodeKey ⟨1, 0, 7⟩) = some ⟨1, 0, 7⟩ :=
  C2_inode_admitted_exactly_once.2.1 exampleFS3 true [gs "a"] [gs "b", gs "c"]
    (inodeKey ⟨1, 0, 7⟩) ⟨1, 0, 7⟩ (by decide)

/-- C7 counterexample: with link-following enabled, the argument `s` is
a symlink resolving to the directory `d`, yet the dispatcher emits no
event at all — no "skipping dir" diagnostic reaches the error channel
(`resolve` returns the silent-skip outcome for every non-regular
resolved target). -/
theorem C7_counterexample :
    (dispatch exampleFSsymDir true [gs "s"]).1 = [] := by decide

/-- C7 (amended): with link-following enabled, an input that is a
symlink resolving to a directory (or any other non-regular object) is
skipped *silently*: no diagnostic is emitted and nothing is enqueued,
though the resolved target's inode is still recorded in the tracker.
The "skipping dir" diagnostic is emitted for inputs that are
directories at `lstat` time (non-symlinks) only. -/
theorem C7_symlink_to_dir_silent :
    (∀ (fs : GhashFS) (s : SeenMap) (nm nm2 : GoStr) (fi fi2 : FileInfo),
      fs.lstat nm = some fi → (isEntrySeen s fi).1 = false →
      fi.mode = FMode.symlink → fs.evalSymlinks nm = some nm2 →
      fs.stat nm2 = some fi2 → fi2.mode ≠ FMode.regular →
      (processOne fs true s nm).1 = [] ∧
      lookupKey (processOne fs true s nm).2 (inodeKey fi2.st) ≠ none) ∧
    (∀ (fs : GhashFS) (follow : Bool) (s : SeenMap) (nm : GoStr) (fi : FileInfo),
      fs.lstat nm = some fi → (isEntrySeen s fi).1 = false → fi.mode = FMode.dir →
      (processOne fs follow s nm).1 =
        [Event.errE (gs "skipping dir " ++ nm ++ gs "..")]) := by
  constructor
  · intro fs s nm nm2 fi fi2 hl hb hm he hst hnr
    rw [processOne_eq_symlink_follow hl hb hm]
    rw [resolve_eq_stat_some he hst]
    have hcond : (((isEntrySeen (isEntrySeen s fi).2 fi2).1 ||
        !decide (fi2.mode = FMode.regular)) = true) := by
      simp [hnr]
    rw [if_pos hcond]
    exact ⟨rfl, isEntrySeen_key_present _ _⟩
  · intro fs follow s nm fi hl hb hm
    have hm' : ¬fi.mode = FMode.symlink := by
      rw [hm]
      simp
    rw [processOne_eq_nosymlink hl hb hm']
    simp [classify, hm]

/-- Witness for the amended C7: the concrete symlink-to-directory
filesystem, plus a directly named directory. -/
theorem C7_symlink_to_dir_silent_witness :
    ((processOne exampleFSsymDir true [] (gs "s")).1 = [] ∧
      lookupKey (processOne exampleFSsymDir true [] (gs "s")).2 (inodeKey dirD.st) ≠ none) ∧
    (processOne ⟨fun _ => some dirD, fun _ => none, fun _ => none⟩ true [] (gs "d")).1 =
      [Event.errE (gs "skipping dir " ++ gs "d" ++ gs "..")] :=
  ⟨C7_symlink_to_dir_silent.1 exampleFSsymDir [] (gs "s") (gs "d") symS dirD
      (by decide) (by decide) (by decide) (by decide) (by decide) (by decide),
    C7_symlink_to_dir_silent.2 ⟨fun _ => some dirD, fun _ => none, fun _ => none⟩
      true [] (gs "d") dirD rfl (by decide) rfl⟩

/-! ### Properties of the constant-time comparison -/

theorem lor_zero_iff {a b : Nat} : a ||| b = 0 ↔ a = 0 ∧ b = 0 := by
  constructor
  · intro h
    have hb : ∀ i, (a ||| b).testBit i = false := by
      intro i
      rw [h]
      exact Nat.zero_testBit i
    constructor
    · apply Nat.zero_of_testBit_eq_false
      intro i
      have hi := hb i
      rw [Nat.testBit_lor] at hi
      exact (Bool.or_eq_false_iff.1 hi).1
    · apply Nat.zero_of_testBit_eq_false
      intro i
      have hi := hb i
      rw [Nat.testBit_lor] at hi
      exact (Bool.or_eq_false_iff.1 hi).2
  · rintro ⟨ha, hb⟩
    subst ha
    subst hb
    decide

theorem foldl_or_eq_zero {l : List Nat} {acc : Nat} :
    l.foldl (fun a b => a ||| b) acc = 0 ↔ acc = 0 ∧ ∀ a ∈ l, a = 0 := by
  induction l generalizing acc with
  | nil => simp
  | cons x xs ih =>
    rw [List.foldl_cons, ih]
    constructor
    · rintro ⟨h1, h2⟩
      have hx := lor_zero_iff.1 h1
      refine ⟨hx.1, ?_⟩
      intro a ha
      rcases List.mem_cons.1 ha with h | h
      · subst h; exact hx.2
      · exact h2 a h
    · rintro ⟨h1, h2⟩
      refine ⟨?_, fun a ha => h2 a (List.mem_cons_of_mem _ ha)⟩
      rw [h1, h2 x (List.mem_cons_self _ _)]
      decide

theorem zip_xor_all_zero :
    ∀ {x y : List Nat}, x.length = y.length →
      ((∀ a ∈ List.zipWith (fun a b => a ^^^ b) x y, a = 0) ↔ x = y) := by
  intro x
  induction x with
  | nil =>
    intro y hlen
    cases y with
    | nil => simp
    | cons b ys => simp at hlen
  | cons a xs ih =>
    intro y hlen
    cases y with
    | nil => simp at hlen
    | cons b ys =>
      simp only [List.length_cons, Nat.add_right_cancel_iff] at hlen
      simp only [List.zipWith_cons_cons, List.mem_cons, List.cons.injEq]
      constructor
      · intro h
        refine ⟨Nat.xor_eq_zero.1 (h _ (Or.inl rfl)), (ih hlen).1 ?_⟩
        intro v hv
        exact h v (Or.inr hv)
      · rintro ⟨hab, hxy⟩
        intro v hv
        rcases hv with hv | hv
        · subst hv
          rw [hab, Nat.xor_self]
        · exact ((ih hlen).2 hxy) v hv

theorem constantTimeCompare_eq_one {x y : List Nat} :
    constantTimeCompare x y = 1 ↔ x = y := by
  unfold constantTimeCompare
  by_cases hlen : x.length = y.length
  · rw [if_neg (by omega)]
    by_cases hz :
        (List.zipWith (fun a b => a ^^^ b) x y).foldl (fun a b => a ||| b) 0 = 0
    · rw [if_pos hz]
      refine ⟨fun _ => ?_, fun _ => rfl⟩
      rw [foldl_or_eq_zero] at hz
      exact (zip_xor_all_zero hlen).1 hz.2
    · rw [if_neg hz]
      refine ⟨fun h => absurd h (by omega), fun he => absurd ?_ hz⟩
      rw [foldl_or_eq_zero]
      exact ⟨rfl, (zip_xor_all_zero hlen).2 he⟩
  · rw [if_pos hlen]
    refine ⟨fun h => absurd h (by omega), fun he => absurd ?_ hlen⟩
    rw [he]

theorem char_toNat_injective : Function.Injective Char.toNat := by
  intro a b h
  apply Char.eq_of_val_eq
  apply UInt32.eq_of_toBitVec_eq
  apply BitVec.eq_of_toNat_eq
  exact h

theorem strBytes_inj {a b : GoStr} (h : strBytes a = strBytes b) : a = b := by
  unfold strBytes at h
  exact List.map_injective_iff.2 char_toNat_injective h

/-! ### Claims about `verifyFile` and `parseLine` -/

/-- Any datum produced by a successful `parseLine` names a regular file
whose stat size equals the recorded size, carries the checksum field as
`expsum`, and has an empty `errPrefix`. -/
theorem parseLine_ok_inversion {fs : VerifyFS} {line pref : GoStr} {d : Datum}
    (h : parseLine fs line pref = GoResult.ok d) :
    ∃ fi, fs.stat d.file = some fi ∧ fi.mode = FMode.regular ∧ fi.size = d.size ∧
      d.errPref = [] ∧ parseFields line = GoResult.ok (d.expsum, d.size, d.file) := by
  unfold parseLine at h
  cases hpf : parseFields line with
  | panicked => rw [hpf] at h; cases h
  | err m => rw [hpf] at h; cases h
  | ok t =>
    obtain ⟨csum, sz, fn⟩ := t
    rw [hpf] at h
    dsimp only at h
    cases hstat : fs.stat fn with
    | none => rw [hstat] at h; cases h
    | some fi =>
      rw [hstat] at h
      dsimp only at h
      by_cases hreg : fi.mode = FMode.regular
      · rw [if_neg (not_not_intro hreg)] at h
        by_cases hsz : fi.size = sz
        · rw [if_neg (not_not_intro hsz)] at h
          cases h
          exact ⟨fi, hstat, hreg, hsz, rfl, rfl⟩
        · rw [if_pos hsz] at h
          cases h
      · rw [if_pos hreg] at h
        cases h

/-- C10: `verifyFile` declares a digest match exactly when the
lowercase hexadecimal rendering of the computed digest is byte-for-byte
equal to the recorded digest field; any other recorded string — in
particular an uppercase rendering of the same digest — is reported as
"file modified" even though the contents are unchanged. -/
theorem C10_digest_match_is_exact_lowercase_hex :
    (∀ (fs : VerifyFS) (d : Datum) (sum : List Nat) (sz : Int),
      fs.hashFile d.file = some (sum, sz) → sz = d.size →
      (verifyFile fs d = none ↔ hexOfBytes sum = d.expsum)) ∧
    (∀ (fs : VerifyFS) (d : Datum) (sum : List Nat) (sz : Int),
      fs.hashFile d.file = some (sum, sz) → sz = d.size →
      d.expsum ≠ hexOfBytes sum →
      verifyFile fs d = some (d.errPref ++ gs ": file modified '" ++ d.file ++ gs "'")) := by
  have key : ∀ (fs : VerifyFS) (d : Datum) (sum : List Nat) (sz : Int),
      fs.hashFile d.file = some (sum, sz) → sz = d.size →
      verifyFile fs d =
        (if constantTimeCompare (strBytes (hexOfBytes sum)) (strBytes d.expsum) ≠ 1 then
          some (d.errPref ++ gs ": file modified '" ++ d.file ++ gs "'")
        else none) := by
    intro fs d sum sz hh hsz
    subst hsz
    unfold verifyFile
    rw [hh]
    dsimp only
    rw [if_neg (not_not_intro rfl)]
  constructor
  · intro fs d sum sz hh hsz
    rw [key fs d sum sz hh hsz]
    by_cases hc : constantTimeCompare (strBytes (hexOfBytes sum)) (strBytes d.expsum) = 1
    · rw [if_neg (not_not_intro hc)]
      constructor
      · intro _
        exact strBytes_inj (constantTimeCompare_eq_one.1 hc)
      · intro _
        rfl
    · rw [if_pos hc]
      constructor
      · intro h
        cases h
      · intro h
        exact absurd (constantTimeCompare_eq_one.2 (by rw [h])) hc
  · intro fs d sum sz hh hsz hne
    rw [key fs d sum sz hh hsz]
    rw [if_pos ?_]
    intro hc
    exact hne ((strBytes_inj (constantTimeCompare_eq_one.1 hc)).symm)

/-- Witness for C10: the one-byte digest `0xab`; recorded as `"ab"` the
file verifies, recorded as its uppercase form `"AB"` it is reported
modified with the (empty-prefixed) "file modified" error. -/
theorem C10_digest_match_is_exact_lowercase_hex_witness :
    verifyFile exampleVFS ⟨gs "f", 1, gs "ab", []⟩ = none ∧
    upperStr (hexOfBytes [171]) = gs "AB" ∧
    verifyFile exampleVFS ⟨gs "f", 1, gs "AB", []⟩ =
      some (([] : GoStr) ++ gs ": file modified '" ++ gs "f" ++ gs "'") :=
  ⟨(C10_digest_match_is_exact_lowercase_hex.1 exampleVFS ⟨gs "f", 1, gs "ab", []⟩
      [171] 1 (by decide) rfl).2 (by decide),
   by decide,
   C10_digest_match_is_exact_lowercase_hex.2 exampleVFS ⟨gs "f", 1, gs "AB", []⟩
      [171] 1 (by decide) rfl (by decide)⟩

/-- C5: when the stat size of a successfully field-parsed entry differs
from the recorded size, `parseLine` rejects the entry with the
size-mismatch error (so it is never placed on the work channel and is
never hashed); consequently every datum the feeder enqueues names a
regular file whose stat size equals its recorded size — hashing and
digest comparison happen only for entries whose sizes match. -/
theorem C5_size_mismatch_rejected_before_hash :
    (∀ (fs : VerifyFS) (line pref csum fn : GoStr) (sz : Int) (fi : FileInfo),
      parseFields line = GoResult.ok (csum, sz, fn) →
      fs.stat fn = some fi → fi.mode = FMode.regular → fi.size ≠ sz →
      parseLine fs line pref = GoResult.err
        (pref ++ gs ": '" ++ fn ++ gs "' size mismatch: exp " ++ intDec sz ++
          gs ", saw " ++ intDec fi.size)) ∧
    (∀ (fs : VerifyFS) (nm : GoStr) (lines : List GoStr) (num : Nat),
      ∀ d ∈ datumsFed fs nm lines num,
        ∃ fi, fs.stat d.file = some fi ∧ fi.mode = FMode.regular ∧ fi.size = d.size) := by
  constructor
  · intro fs line pref csum fn sz fi hpf hstat hreg hsz
    unfold parseLine
    rw [hpf]
    dsimp only
    rw [hstat]
    dsimp only
    rw [if_neg (not_not_intro hreg), if_pos hsz]
  · intro fs nm lines
    induction lines with
    | nil =>
      intro num d hd
      simp [datumsFed] at hd
    | cons l ls ih =>
      intro num d hd
      unfold datumsFed at hd
      cases hp : parseLine fs l (nm ++ gs ": " ++ decDigits num) with
      | ok d0 =>
        rw [hp] at hd
        rcases List.mem_cons.1 hd with h | h
        · subst h
          obtain ⟨fi, h1, h2, h3, -, -⟩ := parseLine_ok_inversion hp
          exact ⟨fi, h1, h2, h3⟩
        · exact ih (num + 1) d h
      | err e =>
        rw [hp] at hd
        exact ih (num + 1) d hd
      | panicked =>
        rw [hp] at hd
        exact ih (num + 1) d hd

/-- Witness for C5: file `f` has size 3 on disk while the manifest line
records 5; `parseLine` rejects it with the size-mismatch error. -/
theorem C5_size_mismatch_rejected_before_hash_witness :
    parseLine exampleVFS5 (gs "aa|5|f") (gs "MANIFEST: 2") = GoResult.err
      (gs "MANIFEST: 2" ++ gs ": '" ++ gs "f" ++ gs "' size mismatch: exp " ++
        intDec 5 ++ gs ", saw " ++ intDec 3) :=
  C5_size_mismatch_rejected_before_hash.1 exampleVFS5 (gs "aa|5|f") (gs "MANIFEST: 2")
    (gs "aa") (gs "f") 5 ⟨FMode.regular, 3, ⟨1, 0, 2⟩⟩
    (by decide) (by decide) rfl (by decide)

/-- C8: the `datum` struct built by a successful `parseLine` never
carries the error prefix (the source sets `file`, `size` and `expsum`
but not `errPrefix`), so every error `verifyFile` produces is tagged
with the empty string instead of the manifest path and line number —
concretely, a manifest entry on line 2 whose file hashes differently
yields the bare error `": file modified 'f'"`. -/
theorem C8_verify_errors_lack_context :
    (∀ (fs : VerifyFS) (line pref : GoStr) (d : Datum),
      parseLine fs line pref = GoResult.ok d → d.errPref = []) ∧
    doVerify exampleVFS (gs "MANIFEST") [gs "#!ghash sha256 1.0", gs "cd|1|f"] =
      VerifyOutcome.done [gs ": file modified 'f'"] 1 := by
  constructor
  · intro fs line pref d h
    obtain ⟨-, -, -, -, hpref, -⟩ := parseLine_ok_inversion h
    exact hpref
  · decide

/-- Witness for C8: the datum parsed from a well-formed entry line has
an empty error prefix. -/
theorem C8_verify_errors_lack_context_witness :
    (Datum.mk (gs "f") 1 (gs "ab") [] : Datum).errPref = [] :=
  C8_verify_errors_lack_context.1 exampleVFS (gs "ab|1|f") (gs "MANIFEST: 2")
    (Datum.mk (gs "f") 1 (gs "ab") []) (by decide)

/-- C1: `doVerify` returns `1 & len(errs)` — the parity of the error
count, not its sign.  A run in which exactly two entries fail returns
exit indicator 0 (reported success), while the same manifest with one
failing entry returns 1. -/
theorem C1_even_failure_count_reports_success :
    doVerify exampleVFS (gs "MANIFEST")
      [gs "#!ghash sha256 1.0", gs "cd|1|f", gs "cd|1|f"] =
      VerifyOutcome.done [gs ": file modified 'f'", gs ": file modified 'f'"] 0 ∧
    doVerify exampleVFS (gs "MANIFEST")
      [gs "#!ghash sha256 1.0", gs "cd|1|f"] =
      VerifyOutcome.done [gs ": file modified 'f'"] 1 := by
  constructor <;> decide

/-- C6: a malformed entry line whose filename field is empty (`"aa|5|"`)
indexes `fn[0]` on an empty string and panics, killing the whole run —
the following line is never attempted; by contrast, the malformations
the scan does guard against (missing delimiter, non-numeric size)
produce per-line diagnostics tagged `manifest: lineNo` and the scan
continues to later lines. -/
theorem C6_empty_filename_line_panics :
    doVerify exampleVFS (gs "MANIFEST")
      [gs "#!ghash sha256 1.0", gs "aa|5|", gs "ab|1|f"] = VerifyOutcome.panicked ∧
    doVerify exampleVFS (gs "MANIFEST")
      [gs "#!ghash sha256 1.0", gs "no-delimiter", gs "aa|zz|f"] =
      VerifyOutcome.done
        [gs "MANIFEST: 2: malformed checksum", gs "MANIFEST: 3: malformed line; size"] 0 := by
  constructor <;> decide

/-! ### Claims about the manifest codec -/

theorem hexDigitChar_props {n : Nat} (h : n < 16) :
    (hexDigitChar n).toNat ≠ 124 ∧ goIsSpace (hexDigitChar n) = false := by
  interval_cases n <;> exact ⟨by decide, by decide⟩

theorem mem_hexOfBytes {sum : List Nat} (hsum : ∀ b ∈ sum, b < 256) {c : Char}
    (hc : c ∈ hexOfBytes sum) : ∃ n, n < 16 ∧ c = hexDigitChar n := by
  induction sum with
  | nil => simp [hexOfBytes] at hc
  | cons b bs ih =>
    have hb : b < 256 := hsum b (List.mem_cons_self _ _)
    rw [hexOfBytes] at hc
    rcases List.mem_cons.1 hc with h | hc2
    · exact ⟨b / 16, by omega, h⟩
    · rcases List.mem_cons.1 hc2 with h | hc3
      · exact ⟨b % 16, Nat.mod_lt _ (by omega), h⟩
      · exact ih (fun x hx => hsum x (List.mem_cons_of_mem _ hx)) hc3

theorem bar_not_mem_hexOfBytes {sum : List Nat} (hsum : ∀ b ∈ sum, b < 256) :
    '|' ∉ hexOfBytes sum := by
  intro hmem
  obtain ⟨n, hn, he⟩ := mem_hexOfBytes hsum hmem
  have := (hexDigitChar_props hn).1
  rw [← he] at this
  exact this rfl

theorem digit_ne_bar {c : Char} (h1 : 48 ≤ c.toNat) (h2 : c.toNat ≤ 57) : c ≠ '|' := by
  intro he
  subst he
  revert h2
  decide

theorem digit_not_space {c : Char} (h1 : 48 ≤ c.toNat) (h2 : c.toNat ≤ 57) :
    goIsSpace c = false := by
  unfold goIsSpace
  rw [decide_eq_false_iff_not]
  omega

theorem bar_not_mem_decDigits {n : Nat} : '|' ∉ decDigits n := by
  intro hmem
  obtain ⟨h1, h2⟩ := decDigits_mem_digit hmem
  exact digit_ne_bar h1 h2 rfl

/-- C3 counterexample: the path `"a"` (a three-character name that
begins with a double-quote) is written verbatim by the manifest writer,
and the decoder then un-quotes it: the round trip returns the path `a`,
not the original `"a"`.  The writer never emits a quoted form. -/
theorem C3_leading_quote_path_not_preserved :
    parseFields (encodeLine [171] 1 (gs "\"a\"")) =
      GoResult.ok (gs "ab", 1, gs "a") ∧
    gs "a" ≠ gs "\"a\"" := by
  constructor <;> decide

/-- C3 (amended): the writer emits every path verbatim (never quoted);
the round trip through `parseFields` restores the digest hex, the size
and the path exactly, for every path that is nonempty, does not begin
with a double-quote, and does not end in whitespace — including paths
containing the `|` delimiter, which survive because the path is the
final field.  (Paths beginning with `"` are mangled or rejected by the
decoder's unquoting, and a path containing a newline breaks the line
framing upstream of the parser.) -/
theorem C3_roundtrip_verbatim_paths (sum : List Nat) (sz : Int) (path : GoStr)
    (hsum : ∀ b ∈ sum, b < 256) (hsz0 : 0 ≤ sz) (hsz1 : sz < 2 ^ 63)
    (hne : path ≠ []) (hq : path.head? ≠ some '"')
    (hlast : ∀ c, path.getLast? = some c → goIsSpace c = false) :
    parseFields (encodeLine sum sz path) = GoResult.ok (hexOfBytes sum, sz, path) := by
  have hdec : intDec sz = decDigits sz.natAbs := by
    unfold intDec
    rw [if_neg (by omega)]
  have htrim : trimSpace (encodeLine sum sz path) = encodeLine sum sz path := by
    apply trimSpace_eq_self
    · intro c hc
      unfold encodeLine at hc
      cases hs : sum with
      | nil =>
        rw [hs] at hc
        simp only [hexOfBytes, List.nil_append, List.head?_cons] at hc
        cases hc
        decide
      | cons b bs =>
        rw [hs] at hc
        simp only [hexOfBytes, List.cons_append, List.head?_cons] at hc
        cases hc
        have hb : b < 256 := hsum b (by rw [hs]; exact List.mem_cons_self _ _)
        exact (hexDigitChar_props (by omega)).2
    · intro c hc
      unfold encodeLine at hc
      rw [List.getLast?_append_of_ne_nil _ (by simp)] at hc
      rw [show ('|' :: (intDec sz ++ '|' :: path)).getLast? =
          (intDec sz ++ '|' :: path).getLast? by
        rw [← List.singleton_append, List.getLast?_append_of_ne_nil _ (by simp)]] at hc
      rw [List.getLast?_append_of_ne_nil _ (by simp)] at hc
      rw [show ('|' :: path).getLast? = path.getLast? by
        rw [← List.singleton_append, List.getLast?_append_of_ne_nil _ hne]] at hc
      exact hlast c hc
  unfold parseFields
  rw [htrim]
  unfold encodeLine
  rw [splitOnce_append (bar_not_mem_hexOfBytes hsum)]
  dsimp only
  rw [splitOnce_append (by rw [hdec]; exact bar_not_mem_decDigits)]
  dsimp only
  have hparse : parseInt64 (intDec sz) = some sz := by
    rw [hdec, parseInt64_decDigits (by omega)]
    rw [Int.natAbs_of_nonneg hsz0]
  rw [hparse]
  dsimp only
  cases path with
  | nil => exact absurd rfl hne
  | cons c cs =>
    have hcq : ¬c = '"' := by
      intro he
      exact hq (by rw [he]; rfl)
    dsimp only
    rw [if_neg hcq]

/-- Witness for the amended C3: digest `0xab`, size 1, and the
pipe-containing path `a|b` round trip exactly. -/
theorem C3_roundtrip_verbatim_paths_witness :
    parseFields (encodeLine [171] 1 (gs "a|b")) =
      GoResult.ok (gs "ab", 1, gs "a|b") :=
  C3_roundtrip_verbatim_paths [171] 1 (gs "a|b")
    (by decide) (by decide) (by decide) (by decide) (by decide) (by decide)

theorem ofList_cons {α : Type} (x : α) (l : List α) :
    Multiset.ofList (x :: l) = optMS (some x) + Multiset.ofList l := by
  simp [optMS]

theorem ofList_append {α : Type} (l1 l2 : List α) :
    Multiset.ofList (l1 ++ l2) = Multiset.ofList l1 + Multiset.ofList l2 := by
  simp

theorem filterMap_set_ms {α β : Type} (f : α → Option β) :
    ∀ (l : List α) (i : Nat) (a v : α), l.get? i = some a →
      Multiset.ofList (List.filterMap f (l.set i v)) + optMS (f a) =
        Multiset.ofList (List.filterMap f l) + optMS (f v) := by
  intro l
  induction l with
  | nil =>
    intro i a v h
    cases i <;> cases h
  | cons x xs ih =>
    intro i a v h
    cases i with
    | zero =>
      have hxa : x = a := Option.some.inj h
      subst hxa
      show Multiset.ofList (List.filterMap f (v :: xs)) + optMS (f x) =
        Multiset.ofList (List.filterMap f (x :: xs)) + optMS (f v)
      rw [List.filterMap_cons, List.filterMap_cons]
      cases hfv : f v <;> cases hfx : f x <;> dsimp only <;>
        simp only [ofList_cons, show optMS (none : Option β) = 0 from rfl] <;> abel
    | succ j =>
      have hj : xs.get? j = some a := h
      have hrec := ih j a v hj
      show Multiset.ofList (List.filterMap f (x :: xs.set j v)) + optMS (f a) =
        Multiset.ofList (List.filterMap f (x :: xs)) + optMS (f v)
      rw [List.filterMap_cons, List.filterMap_cons]
      cases hfx : f x <;> dsimp only
      · exact hrec
      · rename_i bx
        rw [ofList_cons, ofList_cons, add_assoc, add_assoc, hrec]

theorem filterMap_cons_ms {α β : Type} (f : α → Option β) (x : α) (l : List α) :
    Multiset.ofList (List.filterMap f (x :: l)) =
      optMS (f x) + Multiset.ofList (List.filterMap f l) := by
  rw [List.filterMap_cons]
  cases hfx : f x
  · dsimp only
    rw [show optMS (none : Option β) = 0 from rfl, zero_add]
  · dsimp only
    rw [ofList_cons]

theorem filterMap_append_ms {α β : Type} (f : α → Option β) (l1 l2 : List α) :
    Multiset.ofList (List.filterMap f (l1 ++ l2)) =
      Multiset.ofList (List.filterMap f l1) + Multiset.ofList (List.filterMap f l2) := by
  rw [List.filterMap_append, ofList_append]

theorem allD_elem {ws : List WSt} (h : allD ws = true) {w : WSt} (hw : w ∈ ws) :
    w = WSt.done := by
  unfold allD at h
  rw [List.all_eq_true] at h
  have := h w hw
  exact of_decide_eq_true this

theorem get?_mem' {α : Type} : ∀ {l : List α} {i : Nat} {a : α}, l.get? i = some a → a ∈ l := by
  intro l
  induction l with
  | nil => intro i a h; cases i <;> cases h
  | cons x xs ih =>
    intro i a h
    cases i with
    | zero =>
      have : x = a := Option.some.inj h
      subst this
      exact List.mem_cons_self _ _
    | succ j => exact List.mem_cons_of_mem _ (ih h)

theorem allD_get {ws : List WSt} (h : allD ws = true) {i : Nat} {w : WSt}
    (hw : ws.get? i = some w) : w = WSt.done :=
  allD_elem h (get?_mem' hw)

theorem get?_set_self {α : Type} :
    ∀ {l : List α} {i : Nat} {a : α}, l.get? i = some a →
      ∀ (v : α), (l.set i v).get? i = some v := by
  intro l
  induction l with
  | nil => intro i a h; cases i <;> cases h
  | cons x xs ih =>
    intro i a h v
    cases i with
    | zero => rfl
    | succ j => exact ih h v

theorem mem_set_self {α : Type} {l : List α} {i : Nat} {a : α}
    (h : l.get? i = some a) (v : α) : v ∈ l.set i v :=
  get?_mem' (get?_set_self h v)

theorem mem_set_cases {α : Type} :
    ∀ {l : List α} {i : Nat} {v w : α}, w ∈ l.set i v → w = v ∨ w ∈ l := by
  intro l
  induction l with
  | nil => intro i v w h; cases i <;> cases h
  | cons x xs ih =>
    intro i v w h
    cases i with
    | zero =>
      rcases List.mem_cons.1 h with h | h
      · exact Or.inl h
      · exact Or.inr (List.mem_cons_of_mem _ h)
    | succ j =>
      rcases List.mem_cons.1 h with h | h
      · exact Or.inr (by rw [h]; exact List.mem_cons_self _ _)
      · rcases ih h with h | h
        · exact Or.inl h
        · exact Or.inr (List.mem_cons_of_mem _ h)

theorem heldErrs_set_ms {ws : List WSt} {i : Nat} {a : WSt} (h : ws.get? i = some a)
    (v : WSt) :
    Multiset.ofList (heldErrs (ws.set i v)) +
        optMS (match a with | WSt.hold e => some e | _ => none) =
      Multiset.ofList (heldErrs ws) +
        optMS (match v with | WSt.hold e => some e | _ => none) :=
  filterMap_set_ms _ ws i a v h

theorem heldErrs_replicate_idle (n : Nat) : heldErrs (List.replicate n WSt.idle) = [] := by
  induction n with
  | zero => rfl
  | succ m ih =>
    rw [List.replicate_succ]
    unfold heldErrs at ih ⊢
    rw [List.filterMap_cons]
    exact ih

theorem ofList_singleton_optMS {α : Type} (e : α) :
    Multiset.ofList [e] = optMS (some e) := rfl

theorem itemErrs_cons_ms (x : FeedItem) (l : List FeedItem) :
    Multiset.ofList (itemErrs (x :: l)) =
      optMS (match x with | FeedItem.toErr e => some e | FeedItem.toWork r => r) +
        Multiset.ofList (itemErrs l) := by
  unfold itemErrs
  exact filterMap_cons_ms _ _ _

theorem chanErrs_append_ms (l1 l2 : List (Option GoStr)) :
    Multiset.ofList (chanErrs (l1 ++ l2)) =
      Multiset.ofList (chanErrs l1) + Multiset.ofList (chanErrs l2) := by
  unfold chanErrs
  exact filterMap_append_ms _ _ _

theorem chanErrs_singleton (r : Option GoStr) :
    Multiset.ofList (chanErrs [r]) = optMS r := by
  cases r <;> rfl

theorem chanErrs_cons_ms (r : Option GoStr) (l : List (Option GoStr)) :
    Multiset.ofList (chanErrs (r :: l)) = optMS r + Multiset.ofList (chanErrs l) := by
  unfold chanErrs
  exact filterMap_cons_ms _ _ _

/-- Feeder steps preserve the invariant. -/
theorem inv_step_feeder {feed0 : List FeedItem} {n : Nat} (hn : feed0 = [] ∨ 1 ≤ n)
    {c : PipeCfg} (h : PipeInv feed0 n c) : PipeInv feed0 n (step c Actor.feeder) := by
  have hworkersNil : c.workers = [] → feed0 = [] := by
    intro hw
    rcases hn with hn | hn
    · exact hn
    · exfalso
      have hl := h.wlen
      rw [hw] at hl
      simp at hl
      omega
  cases hf : c.feed with
  | nil =>
    have hstep : step c Actor.feeder =
        if c.workClosed then c else { c with workClosed := true } := by
      unfold step feederStep
      rw [hf]
    rw [hstep]
    by_cases hw : c.workClosed
    · rw [if_pos hw]
      exact h
    · rw [if_neg hw]
      refine ⟨h.conserve, h.wlen, h.feedNil, fun _ => hf, fun _ _ _ => rfl,
        fun h1 h2 => h.allDoneQuiet h1 h2, h.errClosedDone, h.aggDoneQuiet,
        h.mainPC1, h.mainPC2⟩
  | cons x rest =>
    have hnotnil : feed0 ≠ [] := by
      intro h0
      rw [h.feedNil h0] at hf
      cases hf
    have hnotclosed : c.workClosed = false := by
      by_contra hx
      simp at hx
      rw [h.closedFeed hx] at hf
      cases hf
    have hnotagg : c.aggDone = false := by
      by_contra hx
      simp at hx
      obtain ⟨hec, -⟩ := h.aggDoneQuiet hx
      have hall := h.errClosedDone hec
      cases hws : c.workers with
      | nil => exact hnotnil (hworkersNil hws)
      | cons w ws =>
        obtain ⟨-, hfe⟩ := h.allDoneQuiet (by rw [hws]; simp) hall
        rw [hfe] at hf
        cases hf
    have hA := h.conserve
    rw [hf, itemErrs_cons_ms] at hA
    cases x with
    | toErr e =>
      have hstep : step c Actor.feeder =
          { c with feed := rest, errCh := c.errCh ++ [e] } := by
        unfold step feederStep
        rw [hf]
      rw [hstep]
      dsimp only at hA
      refine ⟨?_, h.wlen, ?_, ?_, h.doneClosed, ?_, h.errClosedDone, ?_,
        h.mainPC1, h.mainPC2⟩
      · show Multiset.ofList c.errs + Multiset.ofList (c.errCh ++ [e]) +
          Multiset.ofList (heldErrs c.workers) + Multiset.ofList (chanErrs c.workCh) +
          Multiset.ofList (itemErrs rest) = Multiset.ofList (itemErrs feed0)
        rw [ofList_append, ofList_singleton_optMS, ← hA]
        abel
      · intro h0
        exact absurd h0 hnotnil
      · intro hx
        exact absurd (hnotclosed ▸ (show c.workClosed = true from hx)) (by decide)
      · intro h1 h2
        obtain ⟨-, hfe⟩ := h.allDoneQuiet h1 h2
        rw [hfe] at hf
        cases hf
      · intro hx
        exact absurd (hnotagg ▸ (show c.aggDone = true from hx)) (by decide)
    | toWork r =>
      have hstep : step c Actor.feeder =
          { c with feed := rest, workCh := c.workCh ++ [r] } := by
        unfold step feederStep
        rw [hf]
      rw [hstep]
      dsimp only at hA
      refine ⟨?_, h.wlen, ?_, ?_, h.doneClosed, ?_, h.errClosedDone,
        h.aggDoneQuiet, h.mainPC1, h.mainPC2⟩
      · show Multiset.ofList c.errs + Multiset.ofList c.errCh +
          Multiset.ofList (heldErrs c.workers) +
          Multiset.ofList (chanErrs (c.workCh ++ [r])) +
          Multiset.ofList (itemErrs rest) = Multiset.ofList (itemErrs feed0)
        rw [chanErrs_append_ms, chanErrs_singleton, ← hA]
        abel
      · intro h0
        exact absurd h0 hnotnil
      · intro hx
        exact absurd (hnotclosed ▸ (show c.workClosed = true from hx)) (by decide)
      · intro h1 h2
        obtain ⟨-, hfe⟩ := h.allDoneQuiet h1 h2
        rw [hfe] at hf
        cases hf

theorem allD_set_done {ws : List WSt} {i : Nat} (h : allD ws = true) :
    allD (ws.set i WSt.done) = true := by
  unfold allD at h ⊢
  rw [List.all_eq_true] at h ⊢
  intro w hw
  rcases mem_set_cases hw with h2 | h2
  · simp [h2]
  · exact h w h2

/-- Worker steps preserve the invariant. -/
theorem inv_step_worker {feed0 : List FeedItem} {n : Nat}
    {c : PipeCfg} (h : PipeInv feed0 n c) (i : Nat) :
    PipeInv feed0 n (step c (Actor.worker i)) := by
  cases hwi : c.workers.get? i with
  | none =>
    have hstep : step c (Actor.worker i) = c := by
      have hred : step c (Actor.worker i) = workerStep c i := rfl
      rw [hred]
      unfold workerStep
      rw [hwi]
    rw [hstep]
    exact h
  | some w =>
    cases w with
    | done =>
      have hstep : step c (Actor.worker i) = c := by
        have hred : step c (Actor.worker i) = workerStep c i := rfl
        rw [hred]
        unfold workerStep
        rw [hwi]
      rw [hstep]
      exact h
    | hold e =>
      have hstep : step c (Actor.worker i) =
          { c with errCh := c.errCh ++ [e], workers := c.workers.set i WSt.idle } := by
        have hred : step c (Actor.worker i) = workerStep c i := rfl
        rw [hred]
        unfold workerStep
        rw [hwi]
      rw [hstep]
      have hH2 : Multiset.ofList (heldErrs (c.workers.set i WSt.idle)) + optMS (some e) =
          Multiset.ofList (heldErrs c.workers) := by
        have hq := heldErrs_set_ms hwi WSt.idle
        dsimp only at hq
        rw [show optMS (none : Option GoStr) = 0 from rfl, add_zero] at hq
        exact hq
      have hnotall : ¬allD c.workers = true := by
        intro hx
        cases allD_get hx hwi
      refine ⟨?_, ?_, h.feedNil, h.closedFeed, ?_, ?_, ?_, ?_, h.mainPC1, h.mainPC2⟩
      · show Multiset.ofList c.errs + Multiset.ofList (c.errCh ++ [e]) +
          Multiset.ofList (heldErrs (c.workers.set i WSt.idle)) +
          Multiset.ofList (chanErrs c.workCh) + Multiset.ofList (itemErrs c.feed) =
          Multiset.ofList (itemErrs feed0)
        rw [ofList_append, ofList_singleton_optMS, ← h.conserve, ← hH2]
        abel
      · show (c.workers.set i WSt.idle).length = n
        rw [List.length_set]
        exact h.wlen
      · intro w hw hwd
        rcases mem_set_cases hw with h2 | h2
        · rw [h2] at hwd
          cases hwd
        · exact h.doneClosed w h2 hwd
      · intro h1 h2
        have := allD_elem h2 (mem_set_self hwi WSt.idle)
        cases this
      · intro hec
        exact absurd (h.errClosedDone hec) hnotall
      · intro hx
        obtain ⟨hec, -⟩ := h.aggDoneQuiet hx
        exact absurd (h.errClosedDone hec) hnotall
    | idle =>
      have hnotall : ¬allD c.workers = true := by
        intro hx
        cases allD_get hx hwi
      cases hch : c.workCh with
      | cons r rest =>
        cases r with
        | some e =>
          have hstep : step c (Actor.worker i) =
              { c with workCh := rest, workers := c.workers.set i (WSt.hold e) } := by
            have hred : step c (Actor.worker i) = workerStep c i := rfl
            rw [hred]
            unfold workerStep
            rw [hwi, hch]
          rw [hstep]
          have hA := h.conserve
          rw [hch, chanErrs_cons_ms] at hA
          have hH2 : Multiset.ofList (heldErrs (c.workers.set i (WSt.hold e))) =
              Multiset.ofList (heldErrs c.workers) + optMS (some e) := by
            have hq := heldErrs_set_ms hwi (WSt.hold e)
            dsimp only at hq
            rw [show optMS (none : Option GoStr) = 0 from rfl, add_zero] at hq
            exact hq
          refine ⟨?_, ?_, h.feedNil, h.closedFeed, ?_, ?_, ?_, h.aggDoneQuiet,
            h.mainPC1, h.mainPC2⟩
          · show Multiset.ofList c.errs + Multiset.ofList c.errCh +
              Multiset.ofList (heldErrs (c.workers.set i (WSt.hold e))) +
              Multiset.ofList (chanErrs rest) + Multiset.ofList (itemErrs c.feed) =
              Multiset.ofList (itemErrs feed0)
            rw [hH2, ← hA]
            abel
          · show (c.workers.set i (WSt.hold e)).length = n
            rw [List.length_set]
            exact h.wlen
          · intro w hw hwd
            rcases mem_set_cases hw with h2 | h2
            · rw [h2] at hwd
              cases hwd
            · exact h.doneClosed w h2 hwd
          · intro h1 h2
            have := allD_elem h2 (mem_set_self hwi (WSt.hold e))
            cases this
          · intro hec
            exact absurd (h.errClosedDone hec) hnotall
        | none =>
          have hstep : step c (Actor.worker i) = { c with workCh := rest } := by
            have hred : step c (Actor.worker i) = workerStep c i := rfl
            rw [hred]
            unfold workerStep
            rw [hwi, hch]
          rw [hstep]
          have hA := h.conserve
          rw [hch, chanErrs_cons_ms] at hA
          rw [show optMS (none : Option GoStr) = 0 from rfl, zero_add] at hA
          refine ⟨?_, h.wlen, h.feedNil, h.closedFeed, h.doneClosed, ?_, ?_,
            h.aggDoneQuiet, h.mainPC1, h.mainPC2⟩
          · exact hA
          · intro h1 h2
            exact absurd h2 hnotall
          · intro hec
            exact absurd (h.errClosedDone hec) hnotall
      | nil =>
        by_cases hw : c.workClosed
        · have hstep : step c (Actor.worker i) =
              { c with workers := c.workers.set i WSt.done } := by
            have hred : step c (Actor.worker i) = workerStep c i := rfl
            rw [hred]
            unfold workerStep
            rw [hwi, hch, if_pos hw]
          rw [hstep]
          have hH2 : Multiset.ofList (heldErrs (c.workers.set i WSt.done)) =
              Multiset.ofList (heldErrs c.workers) := by
            have hq := heldErrs_set_ms hwi WSt.done
            dsimp only at hq
            rw [show optMS (none : Option GoStr) = 0 from rfl, add_zero, add_zero] at hq
            exact hq
          refine ⟨?_, ?_, h.feedNil, h.closedFeed, ?_, ?_, ?_, h.aggDoneQuiet,
            h.mainPC1, h.mainPC2⟩
          · show Multiset.ofList c.errs + Multiset.ofList c.errCh +
              Multiset.ofList (heldErrs (c.workers.set i WSt.done)) +
              Multiset.ofList (chanErrs c.workCh) + Multiset.ofList (itemErrs c.feed) =
              Multiset.ofList (itemErrs feed0)
            rw [hH2]
            exact h.conserve
          · show (c.workers.set i WSt.done).length = n
            rw [List.length_set]
            exact h.wlen
          · intro w hw2 hwd
            exact hw
          · intro h1 h2
            exact ⟨hch, h.closedFeed hw⟩
          · intro hec
            exact allD_set_done (h.errClosedDone hec)
        · have hstep : step c (Actor.worker i) = c := by
            have hred : step c (Actor.worker i) = workerStep c i := rfl
            rw [hred]
            unfold workerStep
            rw [hwi, hch, if_neg hw]
          rw [hstep]
          exact h

/-- Aggregator steps preserve the invariant. -/
theorem inv_step_agg {feed0 : List FeedItem} {n : Nat}
    {c : PipeCfg} (h : PipeInv feed0 n c) : PipeInv feed0 n (step c Actor.agg) := by
  have hred : step c Actor.agg = aggStep c := rfl
  rw [hred]
  cases hec : c.errCh with
  | cons e rest =>
    have hstep : aggStep c = { c with errCh := rest, errs := c.errs ++ [e] } := by
      unfold aggStep
      rw [hec]
    rw [hstep]
    have hA := h.conserve
    rw [hec, ofList_cons] at hA
    refine ⟨?_, h.wlen, h.feedNil, h.closedFeed, h.doneClosed, h.allDoneQuiet,
      h.errClosedDone, ?_, h.mainPC1, h.mainPC2⟩
    · show Multiset.ofList (c.errs ++ [e]) + Multiset.ofList rest +
        Multiset.ofList (heldErrs c.workers) + Multiset.ofList (chanErrs c.workCh) +
        Multiset.ofList (itemErrs c.feed) = Multiset.ofList (itemErrs feed0)
      rw [ofList_append, ofList_singleton_optMS, ← hA]
      abel
    · intro hx
      obtain ⟨-, hnil⟩ := h.aggDoneQuiet hx
      rw [hec] at hnil
      cases hnil
  | nil =>
    by_cases hc : c.errClosed
    · have hstep : aggStep c = { c with aggDone := true } := by
        unfold aggStep
        rw [hec, if_pos hc]
      rw [hstep]
      exact ⟨h.conserve, h.wlen, h.feedNil, h.closedFeed, h.doneClosed,
        h.allDoneQuiet, h.errClosedDone, fun _ => ⟨hc, hec⟩, h.mainPC1,
        fun hx => rfl⟩
    · have hstep : aggStep c = c := by
        unfold aggStep
        rw [hec, if_neg hc]
      rw [hstep]
      exact h

/-- Main-routine steps preserve the invariant. -/
theorem inv_step_main {feed0 : List FeedItem} {n : Nat}
    {c : PipeCfg} (h : PipeInv feed0 n c) : PipeInv feed0 n (step c Actor.main) := by
  have hred : step c Actor.main = mainStep c := rfl
  rw [hred]
  unfold mainStep
  by_cases h0 : c.mainPC = 0
  · rw [if_pos h0]
    by_cases hall : allD c.workers = true
    · rw [if_pos hall]
      refine ⟨h.conserve, h.wlen, h.feedNil, h.closedFeed, h.doneClosed,
        h.allDoneQuiet, fun _ => hall, ?_, fun _ => rfl, ?_⟩
      · intro hx
        obtain ⟨-, hnil⟩ := h.aggDoneQuiet hx
        exact ⟨rfl, hnil⟩
      · intro hx
        have hx' : (2 : Nat) ≤ 1 := hx
        omega
    · rw [if_neg hall]
      exact h
  · rw [if_neg h0]
    by_cases h1 : c.mainPC = 1
    · rw [if_pos h1]
      by_cases hagg : c.aggDone = true
      · rw [if_pos hagg]
        refine ⟨h.conserve, h.wlen, h.feedNil, h.closedFeed, h.doneClosed,
          h.allDoneQuiet, h.errClosedDone, h.aggDoneQuiet, ?_, fun _ => hagg⟩
        intro _
        exact h.mainPC1 (by omega)
      · rw [if_neg hagg]
        exact h
    · rw [if_neg h1]
      exact h

/-- Any actor's step preserves the invariant. -/
theorem inv_step_all {feed0 : List FeedItem} {n : Nat} (hn : feed0 = [] ∨ 1 ≤ n)
    {c : PipeCfg} (h : PipeInv feed0 n c) :
    ∀ a, PipeInv feed0 n (step c a)
  | Actor.feeder => inv_step_feeder hn h
  | Actor.worker i => inv_step_worker h i
  | Actor.agg => inv_step_agg h
  | Actor.main => inv_step_main h

/-- The invariant holds after any schedule. -/
theorem inv_run {feed0 : List FeedItem} {n : Nat} (hn : feed0 = [] ∨ 1 ≤ n) :
    ∀ (sched : List Actor) (c : PipeCfg),
      PipeInv feed0 n c → PipeInv feed0 n (run c sched) := by
  intro sched
  induction sched with
  | nil => intro c h; exact h
  | cons a rest ih =>
    intro c h
    exact ih (step c a) (inv_step_all hn h a)

/-- The invariant holds initially. -/
theorem inv_init (feed : List FeedItem) (n : Nat) : PipeInv feed n (initCfg feed n) := by
  refine ⟨?_, ?_, fun h => h, ?_, ?_, ?_, ?_, ?_, ?_, ?_⟩
  · show Multiset.ofList [] + Multiset.ofList [] +
      Multiset.ofList (heldErrs (List.replicate n WSt.idle)) +
      Multiset.ofList (chanErrs []) + Multiset.ofList (itemErrs feed) =
      Multiset.ofList (itemErrs feed)
    rw [heldErrs_replicate_idle]
    show (0 : Multiset GoStr) + 0 + 0 + 0 + Multiset.ofList (itemErrs feed) =
      Multiset.ofList (itemErrs feed)
    simp
  · exact List.length_replicate n WSt.idle
  · intro hx
    cases hx
  · intro w hw hd
    rw [List.eq_of_mem_replicate hw] at hd
    cases hd
  · intro h1 h2
    exfalso
    cases hn0 : n with
    | zero =>
      exact h1 (by rw [hn0]; rfl)
    | succ m =>
      have hmem : WSt.idle ∈ List.replicate n WSt.idle :=
        List.mem_replicate.2 ⟨by omega, rfl⟩
      cases allD_elem h2 hmem
  · intro hx
    cases hx
  · intro hx
    cases hx
  · intro hx
    have hx' : (1 : Nat) ≤ 0 := hx
    omega
  · intro hx
    have hx' : (2 : Nat) ≤ 0 := hx
    omega

theorem heldErrs_eq_nil_of_allD {ws : List WSt} (h : allD ws = true) : heldErrs ws = [] := by
  induction ws with
  | nil => rfl
  | cons w rest ih =>
    have hw : w = WSt.done := allD_elem h (List.mem_cons_self _ _)
    have hrest : allD rest = true := by
      unfold allD at h ⊢
      rw [List.all_cons, Bool.and_eq_true] at h
      exact h.2
    unfold heldErrs at ih ⊢
    rw [List.filterMap_cons, hw]
    exact ih hrest

/-- C4: in the shared shutdown skeleton of `processArgs` and
`doVerify`, under every interleaving of the feeder, the workers, the
aggregator and the main routine: the error channel is closed only in
states where every worker has finished consuming the work channel, and
whenever the main routine has returned (passed `errWait.Wait()`), the
aggregator has finished draining the closed error channel and the error
list it produced contains exactly the errors sent by the feeder and the
workers — none lost, none duplicated.  (The side condition reflects the
code: `nw = min(len(args), nWorkers)` is positive whenever there is any
input.) -/
theorem C4_shutdown_order_collects_every_error (feed : List FeedItem) (n : Nat)
    (sched : List Actor) (hn : feed = [] ∨ 1 ≤ n) :
    ((run (initCfg feed n) sched).errClosed = true →
      allD (run (initCfg feed n) sched).workers = true) ∧
    ((run (initCfg feed n) sched).mainPC = 2 →
      (run (initCfg feed n) sched).aggDone = true ∧
      Multiset.ofList (run (initCfg feed n) sched).errs =
        Multiset.ofList (itemErrs feed)) := by
  have hinv := inv_run hn sched _ (inv_init feed n)
  refine ⟨hinv.errClosedDone, ?_⟩
  intro h2
  have hagg := hinv.mainPC2 (by omega)
  obtain ⟨hec, hchnil⟩ := hinv.aggDoneQuiet hagg
  have hall := hinv.errClosedDone hec
  refine ⟨hagg, ?_⟩
  have hcons := hinv.conserve
  cases hws : (run (initCfg feed n) sched).workers with
  | nil =>
    have hf0 : feed = [] := by
      rcases hn with hn | hn
      · exact hn
      · exfalso
        have hl := hinv.wlen
        rw [hws] at hl
        simp at hl
        omega
    have htot : Multiset.ofList (itemErrs feed) = 0 := by
      rw [hf0]
      rfl
    rw [htot]
    have hle : Multiset.ofList (run (initCfg feed n) sched).errs ≤
        Multiset.ofList (run (initCfg feed n) sched).errs +
          Multiset.ofList (run (initCfg feed n) sched).errCh +
          Multiset.ofList (heldErrs (run (initCfg feed n) sched).workers) +
          Multiset.ofList (chanErrs (run (initCfg feed n) sched).workCh) +
          Multiset.ofList (itemErrs (run (initCfg feed n) sched).feed) := by
      calc Multiset.ofList (run (initCfg feed n) sched).errs
          ≤ _ + Multiset.ofList (run (initCfg feed n) sched).errCh :=
            self_le_add_right _ _
        _ ≤ _ + Multiset.ofList (heldErrs (run (initCfg feed n) sched).workers) :=
            self_le_add_right _ _
        _ ≤ _ + Multiset.ofList (chanErrs (run (initCfg feed n) sched).workCh) :=
            self_le_add_right _ _
        _ ≤ _ + Multiset.ofList (itemErrs (run (initCfg feed n) sched).feed) :=
            self_le_add_right _ _
    rw [hcons, htot] at hle
    exact Multiset.le_zero.1 hle
  | cons w ws =>
    obtain ⟨hwch, hfe⟩ := hinv.allDoneQuiet (by rw [hws]; simp) hall
    have hheld : heldErrs (run (initCfg feed n) sched).workers = [] :=
      heldErrs_eq_nil_of_allD hall
    rw [hchnil, hwch, hfe, hheld] at hcons
    show Multiset.ofList (run (initCfg feed n) sched).errs =
      Multiset.ofList (itemErrs feed)
    rw [← hcons]
    show Multiset.ofList (run (initCfg feed n) sched).errs =
      Multiset.ofList (run (initCfg feed n) sched).errs + 0 + 0 + 0 + 0
    simp

/-- Witness for C4: one feeder diagnostic, one failing work item and
one succeeding work item, a single worker, and a concrete complete
schedule; the run returns with exactly the two expected errors
collected. -/
theorem C4_shutdown_order_collects_every_error_witness :
    (run (initCfg [FeedItem.toErr (gs "e1"), FeedItem.toWork (some (gs "e2")),
        FeedItem.toWork none] 1)
      [Actor.feeder, Actor.feeder, Actor.feeder, Actor.feeder,
       Actor.worker 0, Actor.worker 0, Actor.worker 0, Actor.worker 0,
       Actor.main, Actor.agg, Actor.agg, Actor.agg, Actor.main]).aggDone = true ∧
    Multiset.ofList (run (initCfg [FeedItem.toErr (gs "e1"),
        FeedItem.toWork (some (gs "e2")), FeedItem.toWork none] 1)
      [Actor.feeder, Actor.feeder, Actor.feeder, Actor.feeder,
       Actor.worker 0, Actor.worker 0, Actor.worker 0, Actor.worker 0,
       Actor.main, Actor.agg, Actor.agg, Actor.agg, Actor.main]).errs =
    Multiset.ofList (itemErrs [FeedItem.toErr (gs "e1"),
      FeedItem.toWork (some (gs "e2")), FeedItem.toWork none]) :=
  (C4_shutdown_order_collects_every_error
    [FeedItem.toErr (gs "e1"), FeedItem.toWork (some (gs "e2")), FeedItem.toWork none] 1
    [Actor.feeder, Actor.feeder, Actor.feeder, Actor.feeder,
     Actor.worker 0, Actor.worker 0, Actor.worker 0, Actor.worker 0,
     Actor.main, Actor.agg, Actor.agg, Actor.agg, Actor.main]
    (Or.inr (by omega))).2 (by decide)

end GoProgs
